import Mathlib

/-!
Verification of the multalin-optimized alignment viewer (`app.py`) against its
specification.  The Python functions are shallowly embedded: strings become
`List Char`, Python's in-place mutation of the character grid becomes a pure
function returning the new grid, and the float thresholds/frequencies
(`count / num_seqs >= 0.90` …) are modelled as exact fractions compared by
cross multiplication (`Frac`, `fracLe`), which agrees with the source's
comparisons at every realistic alignment size.
-/

namespace App

/-- Python `str.isspace` / default `str.strip` character class
(ASCII whitespace plus the Unicode space and line separators). -/
def pyIsSpace (c : Char) : Bool :=
  c = ' ' || c = '\t' || c = '\n' || c = '\r' || c = '\x0b' || c = '\x0c' ||
  c = '\x1c' || c = '\x1d' || c = '\x1e' || c = '\x1f' || c = '\x85' || c = '\xa0' ||
  c = ' ' || c = ' ' || c = ' ' || c = ' ' || c = ' ' ||
  c = ' ' || c = ' ' || c = ' ' || c = ' ' || c = ' ' ||
  c = ' ' || c = ' ' || c = ' ' || c = ' ' || c = ' ' ||
  c = ' ' || c = '　'

/-- Line boundary characters of Python `str.splitlines`
(besides the two-character boundary `"\r\n"`). -/
def isLineBreak (c : Char) : Bool :=
  c = '\n' || c = '\r' || c = '\x0b' || c = '\x0c' ||
  c = '\x1c' || c = '\x1d' || c = '\x1e' || c = '\x85' || c = ' ' || c = ' '

/-- `str.lstrip()`. -/
def stripLeft (s : List Char) : List Char := s.dropWhile pyIsSpace

/-- `str.rstrip()`. -/
def stripRight (s : List Char) : List Char := (s.reverse.dropWhile pyIsSpace).reverse

/-- Python `str.strip()` with no argument. -/
def stripPy (s : List Char) : List Char := stripRight (stripLeft s)

/-- Python `sep.join(pieces)`. -/
def pyJoin (sep : List Char) : List (List Char) → List Char
  | [] => []
  | [x] => x
  | x :: y :: rest => x ++ sep ++ pyJoin sep (y :: rest)

/-- Python `text.split("\n\n")`: split on non-overlapping occurrences of a
blank-line separator, scanning left to right. -/
def splitNN : List Char → List (List Char)
  | [] => [[]]
  | '\n' :: '\n' :: rest => [] :: splitNN rest
  | c :: rest =>
    match splitNN rest with
    | [] => [[c]]
    | h :: t => (c :: h) :: t

/-- Python `str.splitlines()`. -/
def splitlinesPy : List Char → List (List Char)
  | [] => []
  | '\r' :: '\n' :: rest => [] :: splitlinesPy rest
  | c :: rest =>
    if isLineBreak c then [] :: splitlinesPy rest
    else
      match splitlinesPy rest with
      | [] => [[c]]
      | h :: t => (c :: h) :: t

/-- Python slice `s[a:b]` for `0 ≤ a ≤ b` (indices clamped to the list length). -/
def pySlice {α : Type} (s : List α) (a b : Nat) : List α := (s.take b).drop a

/-- Python `range(0, stop, step)` for a positive `step`. -/
def rangeStep (stop step : Nat) : List Nat :=
  (List.range ((stop + step - 1) / step)).map (fun k => k * step)

/-- The residue lines emitted for one sequence by `plain_text_alignment`:
`seq[i:i+line_length]` for `i in range(0, len(seq), line_length)`. -/
def seqLines (n : Nat) (s : List Char) : List (List Char) :=
  (rangeStep s.length n).map (fun i => pySlice s i (i + n))

/-- Fuel-indexed recursion computing the same chunks as `seqLines`
(used to give the chunk lemmas a structural induction). -/
def chunksF (n : Nat) : Nat → List Char → List (List Char)
  | 0, _ => []
  | _ + 1, [] => []
  | fuel + 1, c :: rest => (c :: rest.take (n - 1)) :: chunksF n fuel (rest.drop (n - 1))

/-- `plain_text_alignment(sequences, line_length)` from `app.py`: per sequence
the name line, the residue string in `line_length`-character lines, and one
empty line; all lines joined with `"\n"`. -/
def plain_text_alignment (sequences : List (List Char × List Char)) (line_length : Nat) :
    List Char :=
  pyJoin ['\n'] (sequences.flatMap (fun p => p.1 :: (seqLines line_length p.2 ++ [[]])))

/-- `parse_editable_alignment(text)` from `app.py`. -/
def parse_editable_alignment (text : List Char) : List (List Char × List Char) :=
  (splitNN (stripPy text)).filterMap (fun block =>
    match splitlinesPy (stripPy block) with
    | [] => none
    | nameLine :: rest => some (stripPy nameLine, (rest.map stripPy).flatten))

/-- One sequence's block of the plain-text export as a single string:
name line and residue lines joined by `"\n"` (no trailing blank line). -/
def lineBlock (n : Nat) (p : List Char × List Char) : List Char :=
  pyJoin ['\n'] (p.1 :: seqLines n p.2)

/-- Whether a string contains two adjacent newline characters (an embedded
blank line, the separator `parse_editable_alignment` splits on). -/
def hasNN : List Char → Bool
  | [] => false
  | '\n' :: '\n' :: _ => true
  | _ :: rest => hasNN rest

/-- The well-formedness condition of the amended round-trip law for one
`(name, residues)` pair: the name is a non-empty, whitespace-trimmed string
with no line-break character, the residues contain no line-break character,
and no exported residue line has leading or trailing whitespace. -/
abbrev exportSafe (n : Nat) (p : List Char × List Char) : Prop :=
  p.1 ≠ [] ∧ stripPy p.1 = p.1 ∧ (∀ c ∈ p.1, isLineBreak c = false) ∧
  (∀ c ∈ p.2, isLineBreak c = false) ∧ (∀ l ∈ seqLines n p.2, stripPy l = l)

/-- Helper of Python `str.split()` with no argument: `cur` is the reversed
current token. -/
def splitWsAux (cur : List Char) : List Char → List (List Char)
  | [] => if cur = [] then [] else [cur.reverse]
  | c :: rest =>
    if pyIsSpace c then
      if cur = [] then splitWsAux [] rest else cur.reverse :: splitWsAux [] rest
    else splitWsAux (c :: cur) rest

/-- Python `str.split()` with no argument: split on whitespace runs,
discarding empty tokens. -/
def splitWs (s : List Char) : List (List Char) := splitWsAux [] s

/-- Python `str.isdigit` restricted to ASCII digits. -/
def isDigitStr (s : List Char) : Bool := !s.isEmpty && s.all Char.isDigit

/-- Python `str.lower`. -/
def lowerStr (s : List Char) : List Char := s.map Char.toLower

/-- One step of `sequences.setdefault(name, ""); sequences[name] += segment`
on a Python 3.7+ dict, modelled as an insertion-ordered association list. -/
def dictAdd (d : List (List Char × List Char)) (name seg : List Char) :
    List (List Char × List Char) :=
  if d.any (fun p => p.1 = name) then
    d.map (fun p => if p.1 = name then (p.1, p.2 ++ seg) else p)
  else d ++ [(name, seg)]

/-- Processing of one MSF block line by `parse_msf`: split into tokens, skip
digit-only rulers and the `consensus` line, otherwise append the concatenated
remaining tokens to the named sequence. -/
def processBlockLine (d : List (List Char × List Char)) (bl : List Char) :
    List (List Char × List Char) :=
  match splitWs (stripPy bl) with
  | [] => d
  | t :: rest =>
    if isDigitStr t then d
    else if lowerStr t = "consensus".toList then d
    else dictAdd d t rest.flatten

/-- `line.strip().startswith("//")`. -/
def startsSlashSlash (l : List Char) : Bool := ['/', '/'].isPrefixOf (stripPy l)

/-- Index of the first line after the `//` delimiter line; `0` when no such
line exists (matching `start_index = 0` never being reassigned). -/
def msfStart (lines : List (List Char)) : Nat :=
  match lines.findIdx? startsSlashSlash with
  | some i => i + 1
  | none => 0

/-- One iteration of `parse_msf`'s main loop: on a blank line flush
`current_block` (when non-empty) through `processBlockLine`, otherwise
append the line to `current_block`.  State: (sequences dict, current_block). -/
def msfStep (st : List (List Char × List Char) × List (List Char)) (line : List Char) :
    List (List Char × List Char) × List (List Char) :=
  if stripPy line = [] then
    if st.2 ≠ [] then (st.2.foldl processBlockLine st.1, []) else st
  else (st.1, st.2 ++ [line])

/-- `parse_msf` from `app.py`, taking the list of lines of the file (as
`readlines` returns them).  Lines are gathered into `current_block`, each
block is flushed at a blank line, and a final flush handles the last block. -/
def parse_msf (lines : List (List Char)) : List (List Char × List Char) :=
  let st := ((lines.drop (msfStart lines)).foldl msfStep ([], []))
  if st.2 ≠ [] then st.2.foldl processBlockLine st.1 else st.1

/-- The `(name, segment)` pair a single MSF block line contributes, if any:
`None` for blank lines, digit-only rulers and the `consensus` line, otherwise
the first token and the concatenation of the remaining tokens. -/
def entryOfLine (bl : List Char) : Option (List Char × List Char) :=
  match splitWs (stripPy bl) with
  | [] => none
  | t :: rest =>
    if isDigitStr t then none
    else if lowerStr t = "consensus".toList then none
    else some (t, rest.flatten)

/-- All `(name, segment)` contributions of the lines after the `//`
delimiter, in reading order (block structure is irrelevant to the result). -/
def effectiveEntries (lines : List (List Char)) : List (List Char × List Char) :=
  (lines.drop (msfStart lines)).filterMap entryOfLine

/-- First-seen-order registration of names: `ks` are the already registered
names, each new name is appended only on its first occurrence. -/
def dedupAppend : List (List Char) → List (List Char) → List (List Char)
  | ks, [] => ks
  | ks, n :: ns => if n ∈ ks then dedupAppend ks ns else dedupAppend (ks ++ [n]) ns

/-- Python `s.replace(pat, repl)`: replace non-overlapping occurrences of
`pat`, scanning left to right. -/
def replaceStr (pat repl : List Char) : List Char → List Char
  | [] => []
  | c :: rest =>
    if !pat.isEmpty && pat.isPrefixOf (c :: rest) then
      repl ++ replaceStr pat repl (rest.drop (pat.length - 1))
    else c :: replaceStr pat repl rest
termination_by s => s.length
decreasing_by
  · simp only [List.length_cons, List.length_drop]
    omega
  · simp only [List.length_cons]
    omega

/-- The marker-to-markup transformation applied by `convert_doc_to_html` to
the alignment block: delete `][` and `)(`, then convert the remaining
brackets to `em` tags. -/
def docTags (text : List Char) : List Char :=
  let t1 := replaceStr "][".toList [] text
  let t2 := replaceStr ")(".toList [] t1
  let t3 := replaceStr "[".toList "<em class=\"high\">".toList t2
  let t4 := replaceStr "]".toList "</em>".toList t3
  let t5 := replaceStr "(".toList "<em class=\"low\">".toList t4
  replaceStr ")".toList "</em>".toList t5

/-- `convert_doc_to_html` from `app.py` (after the file has been read into
its list of lines, terminators included). -/
def convert_doc_to_html (lines : List (List Char)) : List Char :=
  match lines.findIdx? startsSlashSlash with
  | none => "<p>Could not locate alignment section in DOC file.</p>".toList
  | some i =>
    "<pre>".toList ++ docTags ((lines.drop (i + 1)).flatten) ++ "</pre>".toList

/-- A string free of the four consensus marker characters of the DOC format. -/
abbrev noMarks (l : List Char) : Prop :=
  ∀ ch ∈ l, ch ≠ '[' ∧ ch ≠ ']' ∧ ch ≠ '(' ∧ ch ≠ ')'

/-- An exact fraction, standing in for the Python floats `count / num_seqs`,
`0.90`, `0.50` of `highlight_columns`. -/
structure Frac where
  num : Nat
  den : Nat

/-- `a ≤ b` on fractions with positive denominators, by cross multiplication. -/
def fracLe (a b : Frac) : Bool := decide (a.num * b.den ≤ b.num * a.den)

/-- A grid cell: one Python string (a residue character, later possibly
wrapped in an `em` tag). -/
abbrev Cell := List Char

/-- The keys of `collections.Counter(col)` in first-encountered order
(Python dicts preserve insertion order). -/
def counterKeys : List Cell → List Cell
  | [] => []
  | x :: rest => x :: (counterKeys rest).filter (fun y => decide (y ≠ x))

/-- `Counter(col).most_common(1)[0][0]`: the element with the maximum count;
among equal counts the one first encountered (`most_common` sorts stably by
descending count over the insertion-ordered keys). -/
def mostCommonChar (col : List Cell) : Cell :=
  (counterKeys col).foldl (fun b k => if col.count b < col.count k then k else b)
    ((counterKeys col).headD [])

/-- `[seq_chars[row_idx][col_idx] for row_idx in range(num_seqs)]`. -/
def gridColumn (g : List (List Cell)) (c : Nat) : List Cell :=
  g.map (fun row => row.getD c [])

/-- `f"<em class='high'>{most_common_char}</em>"`. -/
def highTag (mc : Cell) : Cell := "<em class=\x27high\x27>".toList ++ mc ++ "</em>".toList

/-- `f"<em class='low'>{most_common_char}</em>"`. -/
def lowTag (mc : Cell) : Cell := "<em class=\x27low\x27>".toList ++ mc ++ "</em>".toList

/-- The body of the per-column loop of `highlight_columns`: tally the column,
skip gap-majority columns, otherwise wrap the majority cells in a `high` or
`low` tag according to the (inclusive, High-first) threshold tests
(`freq = count / num_seqs` is the fraction `⟨count, g.length⟩`). -/
def applyCol (ht lt : Frac) (g : List (List Cell)) (c : Nat) : List (List Cell) :=
  if mostCommonChar (gridColumn g c) = ['-'] ∨ mostCommonChar (gridColumn g c) = [' '] then g
  else if fracLe ht ⟨(gridColumn g c).count (mostCommonChar (gridColumn g c)), g.length⟩ then
    g.map (fun row => if row.getD c [] = mostCommonChar (gridColumn g c)
      then row.set c (highTag (mostCommonChar (gridColumn g c))) else row)
  else if fracLe lt ⟨(gridColumn g c).count (mostCommonChar (gridColumn g c)), g.length⟩ then
    g.map (fun row => if row.getD c [] = mostCommonChar (gridColumn g c)
      then row.set c (lowTag (mostCommonChar (gridColumn g c))) else row)
  else g

/-- `highlight_columns(seq_chars, high_thresh, low_thresh)` from `app.py`,
as a pure function on the grid (the source mutates `seq_chars` in place and
returns `None`; returning the unchanged grid models its early returns). -/
def highlight_columns (g : List (List Cell)) (ht lt : Frac) : List (List Cell) :=
  if g.length = 0 then g
  else if g.all (fun row => row.length = (g.headD []).length) then
    (List.range (g.headD []).length).foldl (applyCol ht lt) g
  else g

/-- The column transformation `highlight_columns` performs on each column of
a length-consistent grid (used to state per-column theorems; the column has
one cell per sequence, so `col.length` is `num_seqs`). -/
def annotateColumn (ht lt : Frac) (col : List Cell) : List Cell :=
  if mostCommonChar col = ['-'] ∨ mostCommonChar col = [' '] then col
  else if fracLe ht ⟨col.count (mostCommonChar col), col.length⟩ then
    col.map (fun cell => if cell = mostCommonChar col then highTag (mostCommonChar col) else cell)
  else if fracLe lt ⟨col.count (mostCommonChar col), col.length⟩ then
    col.map (fun cell => if cell = mostCommonChar col then lowTag (mostCommonChar col) else cell)
  else col

/-- The maximum per-character count in a column (`count` of the `most_common`
element of the `Counter`). -/
def maxCount (col : List Cell) : Nat := (col.map (fun x => col.count x)).foldr max 0

/-- A small two-block MSF input: `seqB` gains segments in both blocks, and the
second block lists `seqB` before `seqA`, so output order (first-seen) differs
from the last block's order (used to witness the C9 characterization). -/
def exMsfLines : List (List Char) :=
  ["header junk\n".toList, " // \n".toList, "\n".toList, "  1 10\n".toList,
   "seqA AAA BB\n".toList, "seqB CCCC\n".toList, "Consensus AAA\n".toList, "\n".toList,
   "seqB DD\n".toList, "seqA EE\n".toList]

/-- A ten-sequence, one-column grid whose column holds nine `A` cells and one
`C` cell, so the majority frequency is exactly the default high threshold
`9/10` (used to witness the inclusive threshold comparison). -/
def exGrid : List (List Cell) :=
  [[['A']], [['A']], [['A']], [['A']], [['A']], [['A']], [['A']], [['A']], [['A']], [['C']]]

/-- The `style_block` string literal of `mode3_full_snippet`. -/
def styleBlock : List Char :=
  ("\n<style>\npre.seq \x7b font-family: monospace; white-space: pre; \x7d\n" ++
   "em.high \x7b color: red; font-weight: bold; \x7d\n" ++
   "em.low  \x7b color: blue; font-weight: bold; \x7d\n</style>\n").toList

/-- The per-sequence part of `mode3_full_snippet`'s output: for each sequence
its name line, the cell rows chunked by `range(0, align_len, chunk_size)`
with `chunk_end = min(chunk_start + chunk_size, align_len)`, and a blank
line. -/
def snippetBody (sequences : List (List Char × List Char)) (grid : List (List Cell))
    (align_len chunk_size : Nat) : List Char :=
  (sequences.zip grid).flatMap (fun pm =>
    pm.1.1 ++ '\n' :: ((rangeStep align_len chunk_size).flatMap (fun cs =>
      (pySlice pm.2 cs (min (cs + chunk_size) align_len)).flatten ++ ['\n'])) ++ ['\n'])

/-- `seq_chars = [list(seq) for _, seq in sequences]`: every residue becomes
a one-character cell string. -/
def mkGrid (sequences : List (List Char × List Char)) : List (List Cell) :=
  sequences.map (fun p => p.2.map (fun ch => [ch]))

/-- `mode3_full_snippet(sequences, chunk_size)` from `app.py`
(`align_len = len(seq_chars[0])`, read after the in-place highlighting). -/
def mode3_full_snippet (sequences : List (List Char × List Char)) (chunk_size : Nat) :
    List Char :=
  if sequences = [] then "<p>No alignment results available.</p>".toList
  else
    styleBlock ++ "<pre class=\x27seq\x27>".toList
      ++ snippetBody sequences (highlight_columns (mkGrid sequences) ⟨9, 10⟩ ⟨1, 2⟩)
           ((highlight_columns (mkGrid sequences) ⟨9, 10⟩ ⟨1, 2⟩).headD []).length chunk_size
      ++ "</pre>".toList

/-- What `mode3_full_snippet` computes when the highlighting pass leaves the
grid untouched: the same document built from the raw, unannotated cells. -/
def mode3_raw (sequences : List (List Char × List Char)) (chunk_size : Nat) :
    List Char :=
  if sequences = [] then "<p>No alignment results available.</p>".toList
  else
    styleBlock ++ "<pre class=\x27seq\x27>".toList
      ++ snippetBody sequences (mkGrid sequences) ((mkGrid sequences).headD []).length chunk_size
      ++ "</pre>".toList

/-! ### Chunking lemmas for the plain-text export -/

theorem seqLines_nil (n : Nat) : seqLines n [] = [] := by
  have h : (n - 1) / n = 0 := by
    rcases Nat.eq_zero_or_pos n with h | h
    · subst h; rfl
    · exact Nat.div_eq_of_lt (by omega)
  simp [seqLines, rangeStep, h]

theorem seqLines_cons (n : Nat) (hn : 1 ≤ n) (s : List Char) (hs : s ≠ []) :
    seqLines n s = s.take n :: seqLines n (s.drop n) := by
  have hl : 0 < s.length := List.length_pos.mpr hs
  have h1 : (s.length + n - 1) / n = (s.length - 1) / n + 1 := by
    have e : s.length + n - 1 = (s.length - 1) + n := by omega
    rw [e, Nat.add_div_right _ (by omega)]
  have h2 : ((s.drop n).length + n - 1) / n = (s.length - 1) / n := by
    rw [List.length_drop]
    rcases le_or_lt s.length n with h | h
    · have e1 : s.length - n + n - 1 = n - 1 := by omega
      rw [e1, Nat.div_eq_of_lt (by omega), Nat.div_eq_of_lt (by omega)]
    · have e1 : s.length - n + n - 1 = s.length - 1 := by omega
      rw [e1]
  unfold seqLines rangeStep
  rw [h1, h2, List.range_succ_eq_map]
  simp only [List.map_cons, List.map_map]
  congr 1
  · simp [pySlice]
  · apply List.map_congr_left
    intro i _
    simp only [Function.comp_apply, Nat.succ_eq_add_one, pySlice]
    have e2 : (i + 1) * n + n = n + (i * n + n) := by ring
    have e1 : (i + 1) * n = n + i * n := by ring
    rw [e2, e1, List.take_drop, List.drop_drop]

theorem chunksF_eq (n : Nat) (hn : 1 ≤ n) :
    ∀ fuel s, s.length ≤ fuel → chunksF n fuel s = seqLines n s := by
  intro fuel
  induction fuel with
  | zero =>
    intro s hs
    have h : s = [] := by cases s <;> simp_all
    subst h
    rw [seqLines_nil]
    rfl
  | succ fuel ih =>
    intro s hs
    cases s with
    | nil => rw [seqLines_nil]; rfl
    | cons c rest =>
      rw [seqLines_cons n hn _ (by simp)]
      have ht : (c :: rest).take n = c :: rest.take (n - 1) := by
        cases n with
        | zero => omega
        | succ m => simp
      have hd : (c :: rest).drop n = rest.drop (n - 1) := by
        cases n with
        | zero => omega
        | succ m => simp
      rw [ht, hd]
      show (c :: rest.take (n - 1)) :: chunksF n fuel (rest.drop (n - 1)) = _
      rw [ih (rest.drop (n - 1)) (by simp only [List.length_cons, List.length_drop] at hs ⊢; omega)]

theorem chunksF_flatten (n : Nat) :
    ∀ fuel s, s.length ≤ fuel → (chunksF n fuel s).flatten = s := by
  intro fuel
  induction fuel with
  | zero =>
    intro s hs
    have h : s = [] := by cases s <;> simp_all
    subst h; rfl
  | succ fuel ih =>
    intro s hs
    cases s with
    | nil => rfl
    | cons c rest =>
      show ((c :: rest.take (n - 1)) :: chunksF n fuel (rest.drop (n - 1))).flatten = c :: rest
      rw [List.flatten_cons, ih (rest.drop (n - 1))
        (by simp only [List.length_cons, List.length_drop] at hs ⊢; omega)]
      simp [List.take_append_drop]

theorem chunksF_mem (n : Nat) (hn : 1 ≤ n) :
    ∀ fuel s, s.length ≤ fuel → ∀ l ∈ chunksF n fuel s, l ≠ [] ∧ l.length ≤ n := by
  intro fuel
  induction fuel with
  | zero =>
    intro s hs l hl
    have h : s = [] := by cases s <;> simp_all
    subst h; simp [chunksF] at hl
  | succ fuel ih =>
    intro s hs l hl
    cases s with
    | nil => simp [chunksF] at hl
    | cons c rest =>
      have : l = c :: rest.take (n - 1) ∨ l ∈ chunksF n fuel (rest.drop (n - 1)) := by
        simpa [chunksF] using hl
      rcases this with h | h
      · subst h
        refine ⟨by simp, ?_⟩
        simp only [List.length_cons, List.length_take]
        omega
      · exact ih (rest.drop (n - 1))
          (by simp only [List.length_cons, List.length_drop] at hs ⊢; omega) l h

theorem seqLines_flatten (n : Nat) (hn : 1 ≤ n) (s : List Char) :
    (seqLines n s).flatten = s := by
  rw [← chunksF_eq n hn s.length s le_rfl]
  exact chunksF_flatten n s.length s le_rfl

theorem seqLines_mem (n : Nat) (hn : 1 ≤ n) (s : List Char) :
    ∀ l ∈ seqLines n s, l ≠ [] ∧ l.length ≤ n := by
  rw [← chunksF_eq n hn s.length s le_rfl]
  exact chunksF_mem n hn s.length s le_rfl

theorem seqLines_length (n : Nat) (s : List Char) :
    (seqLines n s).length = (s.length + n - 1) / n := by
  simp [seqLines, rangeStep]

theorem seqLines_sublist_chars (n : Nat) (hn : 1 ≤ n) (s : List Char) :
    ∀ l ∈ seqLines n s, ∀ ch ∈ l, ch ∈ s := by
  intro l hl ch hch
  rw [← seqLines_flatten n hn s]
  exact List.mem_flatten.mpr ⟨l, hl, hch⟩

/-! ### C2: layout of the plain-text export -/

/-- C2: the claim states that the export places the complete residue string on
a single line ("internal line-chunking disabled").  The code chunks residues
into `line_length`-character lines: a 61-character residue string is exported
as two residue lines, and the exported text differs from the single-line
layout the claim describes. -/
theorem C2_counterexample :
    (seqLines 60 (List.replicate 61 'A')).length = 2 ∧
    plain_text_alignment [(['n'], List.replicate 61 'A')] 60 =
      ['n'] ++ '\n' :: (List.replicate 60 'A' ++ '\n' :: 'A' :: ['\n']) ∧
    plain_text_alignment [(['n'], List.replicate 61 'A')] 60 ≠
      ['n'] ++ '\n' :: (List.replicate 61 'A' ++ ['\n']) := by
  refine ⟨by decide, by decide, by decide⟩

/-- C2 (amended): for every sequence the export emits the name line, then the
residue string broken into `⌈len/line_length⌉` lines of at most `line_length`
characters each (one line only when `len ≤ line_length`), whose concatenation
is exactly the residue string, then one blank line. -/
theorem C2_export_chunked (n : Nat) (hn : 1 ≤ n) (s : List Char) :
    (seqLines n s).length = (s.length + n - 1) / n ∧
    (∀ l ∈ seqLines n s, l ≠ [] ∧ l.length ≤ n) ∧
    (seqLines n s).flatten = s :=
  ⟨seqLines_length n s, seqLines_mem n hn s, seqLines_flatten n hn s⟩

theorem C2_export_chunked_witness :
    1 ≤ 60 ∧
    ((seqLines 60 (List.replicate 61 'A')).length = ((List.replicate 61 'A').length + 60 - 1) / 60 ∧
     (∀ l ∈ seqLines 60 (List.replicate 61 'A'), l ≠ [] ∧ l.length ≤ 60) ∧
     (seqLines 60 (List.replicate 61 'A')).flatten = List.replicate 61 'A') :=
  ⟨by decide, C2_export_chunked 60 (by decide) (List.replicate 61 'A')⟩

/-! ### C10 / C3: behaviour on length-inconsistent grids -/

theorem highlight_columns_mismatch (g : List (List Cell)) (ht lt : Frac)
    (h : ∃ row ∈ g, row.length ≠ (g.headD []).length) :
    highlight_columns g ht lt = g := by
  obtain ⟨row, hrow, hne⟩ := h
  have hg : ¬ g.length = 0 := by
    cases g with
    | nil => simp at hrow
    | cons a l => simp
  have h2 : ¬ (g.all (fun r => r.length = (g.headD []).length) = true) := by
    simp only [List.all_eq_true, decide_eq_true_eq]
    push_neg
    exact ⟨row, hrow, hne⟩
  unfold highlight_columns
  rw [if_neg hg, if_neg h2]

/-- C10: if any row of the grid has a length different from the first row's
length, `highlight_columns` performs no column processing and the grid is
returned entirely unchanged. -/
theorem C10_mismatch_grid_unchanged (g : List (List Cell)) (ht lt : Frac)
    (h : ∃ row ∈ g, row.length ≠ (g.headD []).length) :
    highlight_columns g ht lt = g :=
  highlight_columns_mismatch g ht lt h

set_option maxRecDepth 8000 in
/-- C3: the claim states that a non-empty alignment with inconsistent residue
lengths renders a fixed "inconsistent lengths" placeholder and never partial
rows.  The code has no such placeholder: the output varies with the input
(so it is no fixed placeholder), and the 12-residue sequence `s2` is rendered
as the partial 10-character row `ABCDEFGHIJ`, clamped to the first sequence's
length. -/
theorem C3_counterexample :
    mode3_full_snippet [("s1".toList, "ABCDEFGHIJ".toList),
        ("s2".toList, "ABCDEFGHIJKL".toList)] 60 =
      styleBlock ++ "<pre class=\x27seq\x27>s1\nABCDEFGHIJ\n\ns2\nABCDEFGHIJ\n\n</pre>".toList ∧
    mode3_full_snippet [("s1".toList, "ABCDEFGHIJ".toList),
        ("s2".toList, "ABCDEFGHIJKL".toList)] 60 ≠
      mode3_full_snippet [("t".toList, "AB".toList), ("u".toList, "ABC".toList)] 60 :=
  ⟨by decide, by decide⟩

/-- C3 (amended): on a non-empty alignment whose residue lengths are not all
equal, the snippet renderer returns no placeholder: the highlighting pass
leaves the grid untouched and the document is rendered from the raw cells,
each row chunked against the first sequence's length (so longer sequences
are truncated to partial rows). -/
theorem C3_inconsistent_renders_raw (sequences : List (List Char × List Char))
    (chunk_size : Nat)
    (hmis : ∃ p ∈ sequences, p.2.length ≠ (sequences.headD ([], [])).2.length) :
    mode3_full_snippet sequences chunk_size = mode3_raw sequences chunk_size := by
  cases sequences with
  | nil => simp at hmis
  | cons q qs =>
    obtain ⟨p, hp, hlen⟩ := hmis
    have hid : highlight_columns (mkGrid (q :: qs)) ⟨9, 10⟩ ⟨1, 2⟩ = mkGrid (q :: qs) := by
      apply highlight_columns_mismatch
      refine ⟨p.2.map (fun ch => [ch]), List.mem_map_of_mem _ hp, ?_⟩
      simpa [mkGrid] using hlen
    unfold mode3_full_snippet mode3_raw
    rw [hid]

theorem C3_inconsistent_renders_raw_witness :
    (∃ p ∈ [("s1".toList, "ABCDEFGHIJ".toList), ("s2".toList, "ABCDEFGHIJKL".toList)],
        p.2.length ≠ (([("s1".toList, "ABCDEFGHIJ".toList),
          ("s2".toList, "ABCDEFGHIJKL".toList)]).headD ([], [])).2.length) ∧
    mode3_full_snippet [("s1".toList, "ABCDEFGHIJ".toList),
        ("s2".toList, "ABCDEFGHIJKL".toList)] 60 =
      mode3_raw [("s1".toList, "ABCDEFGHIJ".toList), ("s2".toList, "ABCDEFGHIJKL".toList)] 60 :=
  ⟨by decide, C3_inconsistent_renders_raw _ 60 (by decide)⟩

/-! ### C8: empty alignment -/

/-- C8: for an alignment with zero sequences, `mode3_full_snippet` returns
the fixed "no results" placeholder (for every chunk size), and not the
stylesheet-only empty document. -/
theorem C8_empty_renders_placeholder (chunk_size : Nat) :
    mode3_full_snippet [] chunk_size = "<p>No alignment results available.</p>".toList ∧
    mode3_full_snippet [] chunk_size ≠
      styleBlock ++ "<pre class=\x27seq\x27>".toList ++ "</pre>".toList := by
  have h : mode3_full_snippet [] chunk_size = "<p>No alignment results available.</p>".toList := by
    simp [mode3_full_snippet]
  refine ⟨h, ?_⟩
  rw [h]
  decide

theorem C10_mismatch_grid_unchanged_witness :
    (∃ row ∈ [[['a']], [['b'], ['c']]],
        row.length ≠ (([[['a']], [['b'], ['c']]] : List (List Cell)).headD []).length) ∧
    highlight_columns [[['a']], [['b'], ['c']]] ⟨9, 10⟩ ⟨1, 2⟩ = [[['a']], [['b'], ['c']]] :=
  ⟨by decide, C10_mismatch_grid_unchanged _ ⟨9, 10⟩ ⟨1, 2⟩ (by decide)⟩

/-! ### Column isolation of the highlighting pass -/

theorem getD_set_ne (l : List Cell) (i j : Nat) (a : Cell) (h : i ≠ j) :
    (l.set i a).getD j [] = l.getD j [] := by
  simp [List.getD, List.getElem?_set_ne h]

theorem getD_set_self (l : List Cell) (i : Nat) (a : Cell) (h : i < l.length) :
    (l.set i a).getD i [] = a := by
  simp [List.getD, List.getElem?_set_self, h]

theorem applyCol_uniform (ht lt : Frac) (g : List (List Cell)) (c : Nat) (L : Nat)
    (hu : ∀ row ∈ g, row.length = L) :
    ∀ row ∈ applyCol ht lt g c, row.length = L := by
  intro row hrow
  unfold applyCol at hrow
  split at hrow
  · exact hu row hrow
  · split at hrow
    · obtain ⟨r, hr, rfl⟩ := List.mem_map.mp hrow
      split
      · rw [List.length_set]; exact hu r hr
      · exact hu r hr
    · split at hrow
      · obtain ⟨r, hr, rfl⟩ := List.mem_map.mp hrow
        split
        · rw [List.length_set]; exact hu r hr
        · exact hu r hr
      · exact hu row hrow

theorem gridColumn_applyCol_ne (ht lt : Frac) (g : List (List Cell)) (c c' : Nat)
    (h : c ≠ c') :
    gridColumn (applyCol ht lt g c') c = gridColumn g c := by
  have hmap : ∀ (v : Cell → Cell),
      gridColumn (g.map (fun row => if row.getD c' [] = mostCommonChar (gridColumn g c')
        then row.set c' (v (mostCommonChar (gridColumn g c'))) else row)) c = gridColumn g c := by
    intro v
    unfold gridColumn
    rw [List.map_map]
    apply List.map_congr_left
    intro row _
    simp only [Function.comp_apply]
    split
    · exact getD_set_ne row c' c (v _) (Ne.symm h)
    · rfl
  unfold applyCol
  split
  · rfl
  · split
    · exact hmap highTag
    · split
      · exact hmap lowTag
      · rfl

theorem gridColumn_applyCol_self (ht lt : Frac) (g : List (List Cell)) (c : Nat) (L : Nat)
    (hu : ∀ row ∈ g, row.length = L) (hc : c < L) :
    gridColumn (applyCol ht lt g c) c = annotateColumn ht lt (gridColumn g c) := by
  have hlen : (gridColumn g c).length = g.length := List.length_map g _
  have hmap : ∀ (v : Cell → Cell),
      gridColumn (g.map (fun row => if row.getD c [] = mostCommonChar (gridColumn g c)
        then row.set c (v (mostCommonChar (gridColumn g c))) else row)) c =
      (gridColumn g c).map (fun cell => if cell = mostCommonChar (gridColumn g c)
        then v (mostCommonChar (gridColumn g c)) else cell) := by
    intro v
    unfold gridColumn
    rw [List.map_map, List.map_map]
    apply List.map_congr_left
    intro row hrow
    simp only [Function.comp_apply]
    split
    · exact getD_set_self row c _ (by rw [hu row hrow]; exact hc)
    · rfl
  unfold applyCol annotateColumn
  rw [hlen]
  split
  · rfl
  · split
    · exact hmap highTag
    · split
      · exact hmap lowTag
      · rfl

theorem foldl_applyCol_not_mem (ht lt : Frac) :
    ∀ (cs : List Nat) (g : List (List Cell)) (c : Nat), c ∉ cs →
      gridColumn (cs.foldl (applyCol ht lt) g) c = gridColumn g c := by
  intro cs
  induction cs with
  | nil => intro g c _; rfl
  | cons c' cs ih =>
    intro g c hc
    rw [List.foldl_cons, ih _ c (fun h => hc (List.mem_cons_of_mem _ h)),
      gridColumn_applyCol_ne ht lt g c c' (fun h => hc (h ▸ List.mem_cons_self _ _))]

theorem foldl_applyCol_uniform (ht lt : Frac) (L : Nat) :
    ∀ (cs : List Nat) (g : List (List Cell)), (∀ row ∈ g, row.length = L) →
      ∀ row ∈ cs.foldl (applyCol ht lt) g, row.length = L := by
  intro cs
  induction cs with
  | nil => intro g hu; exact hu
  | cons c' cs ih =>
    intro g hu
    rw [List.foldl_cons]
    exact ih _ (applyCol_uniform ht lt g c' L hu)

theorem foldl_applyCol_mem (ht lt : Frac) (L : Nat) :
    ∀ (cs : List Nat), cs.Nodup → ∀ (g : List (List Cell)),
      (∀ row ∈ g, row.length = L) → ∀ c ∈ cs, c < L →
      gridColumn (cs.foldl (applyCol ht lt) g) c = annotateColumn ht lt (gridColumn g c) := by
  intro cs
  induction cs with
  | nil => intro _ g _ c hc; simp at hc
  | cons c' cs ih =>
    intro hnd g hu c hmem hc
    rw [List.foldl_cons]
    rcases List.mem_cons.mp hmem with rfl | hmem'
    · rw [foldl_applyCol_not_mem ht lt cs _ c (by simpa using (List.nodup_cons.mp hnd).1)]
      exact gridColumn_applyCol_self ht lt g c L hu hc
    · have hne : c ≠ c' := fun h => (List.nodup_cons.mp hnd).1 (h ▸ hmem')
      rw [ih (List.nodup_cons.mp hnd).2 _ (applyCol_uniform ht lt g c' L hu) c hmem' hc,
        gridColumn_applyCol_ne ht lt g c c' hne]

/-- Master lemma: on a length-consistent grid, `highlight_columns` transforms
every column `c < align_len` independently, by `annotateColumn`. -/
theorem highlight_columns_column (g : List (List Cell)) (ht lt : Frac) (c : Nat)
    (hu : ∀ row ∈ g, row.length = (g.headD []).length)
    (hc : c < (g.headD []).length) :
    gridColumn (highlight_columns g ht lt) c = annotateColumn ht lt (gridColumn g c) := by
  have hg : ¬ g.length = 0 := by
    cases g with
    | nil => simp at hc
    | cons a l => simp
  have hall : g.all (fun row => row.length = (g.headD []).length) = true := by
    simp only [List.all_eq_true, decide_eq_true_eq]
    exact hu
  unfold highlight_columns
  rw [if_neg hg, if_pos hall]
  exact foldl_applyCol_mem ht lt (g.headD []).length (List.range (g.headD []).length)
    (List.nodup_range _) g hu c (List.mem_range.mpr hc) hc

/-! ### C4: gap-majority columns stay Plain -/

/-- C4: on a length-consistent grid, if the majority character of a column is
the gap symbol `-` (or the space variant), `highlight_columns` leaves every
cell of that column unchanged — no sequence is annotated High or Low there,
whatever the thresholds and frequency are. -/
theorem C4_gap_majority_plain (g : List (List Cell)) (ht lt : Frac) (c : Nat)
    (hu : ∀ row ∈ g, row.length = (g.headD []).length)
    (hc : c < (g.headD []).length)
    (hgap : mostCommonChar (gridColumn g c) = ['-'] ∨ mostCommonChar (gridColumn g c) = [' ']) :
    gridColumn (highlight_columns g ht lt) c = gridColumn g c := by
  rw [highlight_columns_column g ht lt c hu hc]
  unfold annotateColumn
  rw [if_pos hgap]

theorem C4_gap_majority_plain_witness :
    (∀ row ∈ [[['-'], ['A']], [['-'], ['C']]], row.length =
      (([[['-'], ['A']], [['-'], ['C']]] : List (List Cell)).headD []).length) ∧
    0 < (([[['-'], ['A']], [['-'], ['C']]] : List (List Cell)).headD []).length ∧
    (mostCommonChar (gridColumn [[['-'], ['A']], [['-'], ['C']]] 0) = ['-'] ∨
      mostCommonChar (gridColumn [[['-'], ['A']], [['-'], ['C']]] 0) = [' ']) ∧
    gridColumn (highlight_columns [[['-'], ['A']], [['-'], ['C']]] ⟨9, 10⟩ ⟨1, 2⟩) 0 =
      gridColumn [[['-'], ['A']], [['-'], ['C']]] 0 :=
  ⟨by decide, by decide, by decide,
    C4_gap_majority_plain _ ⟨9, 10⟩ ⟨1, 2⟩ 0 (by decide) (by decide) (by decide)⟩

/-! ### C5: inclusive thresholds, High before Low -/

/-- C5: on a length-consistent grid, for a column whose majority character is
not a gap: if `freq ≥ high_thresh` (inclusive — `fracLe ht ⟨count, N⟩` is the
exact-rational `ht ≤ count/N`), exactly the cells equal to the majority
character are wrapped in the High tag and every other cell is unchanged
(Plain); otherwise, if `freq ≥ low_thresh`, the same cells are wrapped in the
Low tag instead.  High is tested before Low. -/
theorem C5_threshold_assignment (g : List (List Cell)) (ht lt : Frac) (c : Nat)
    (hu : ∀ row ∈ g, row.length = (g.headD []).length)
    (hc : c < (g.headD []).length)
    (hng : ¬(mostCommonChar (gridColumn g c) = ['-'] ∨
      mostCommonChar (gridColumn g c) = [' '])) :
    (fracLe ht ⟨(gridColumn g c).count (mostCommonChar (gridColumn g c)), g.length⟩ = true →
      gridColumn (highlight_columns g ht lt) c =
        (gridColumn g c).map (fun cell => if cell = mostCommonChar (gridColumn g c)
          then highTag (mostCommonChar (gridColumn g c)) else cell)) ∧
    (fracLe ht ⟨(gridColumn g c).count (mostCommonChar (gridColumn g c)), g.length⟩ = false →
      fracLe lt ⟨(gridColumn g c).count (mostCommonChar (gridColumn g c)), g.length⟩ = true →
      gridColumn (highlight_columns g ht lt) c =
        (gridColumn g c).map (fun cell => if cell = mostCommonChar (gridColumn g c)
          then lowTag (mostCommonChar (gridColumn g c)) else cell)) := by
  have hlen : (gridColumn g c).length = g.length := List.length_map g _
  have hmaster := highlight_columns_column g ht lt c hu hc
  constructor
  · intro hhigh
    rw [hmaster]
    unfold annotateColumn
    rw [hlen, if_neg hng, if_pos hhigh]
  · intro hhigh hlow
    rw [hmaster]
    unfold annotateColumn
    rw [hlen, if_neg hng, if_neg (by rw [hhigh]; exact Bool.false_ne_true), if_pos hlow]

theorem C5_threshold_assignment_witness :
    (∀ row ∈ exGrid, row.length = (exGrid.headD []).length) ∧
    0 < (exGrid.headD []).length ∧
    ¬(mostCommonChar (gridColumn exGrid 0) = ['-'] ∨
      mostCommonChar (gridColumn exGrid 0) = [' ']) ∧
    fracLe ⟨9, 10⟩ ⟨(gridColumn exGrid 0).count (mostCommonChar (gridColumn exGrid 0)),
      exGrid.length⟩ = true ∧
    gridColumn (highlight_columns exGrid ⟨9, 10⟩ ⟨1, 2⟩) 0 =
      (gridColumn exGrid 0).map (fun cell => if cell = mostCommonChar (gridColumn exGrid 0)
        then highTag (mostCommonChar (gridColumn exGrid 0)) else cell) :=
  ⟨by decide, by decide, by decide, by decide,
    (C5_threshold_assignment exGrid ⟨9, 10⟩ ⟨1, 2⟩ 0 (by decide) (by decide) (by decide)).1
      (by decide)⟩

/-! ### C6: the majority tie-break -/

theorem foldr_max_cons (f : Cell → Nat) (x : Cell) (l : List Cell) :
    ((x :: l).map f).foldr max 0 = max (f x) ((l.map f).foldr max 0) := rfl

theorem le_foldr_max (f : Cell → Nat) :
    ∀ (l : List Cell) (x : Cell), x ∈ l → f x ≤ (l.map f).foldr max 0 := by
  intro l
  induction l with
  | nil => intro x hx; simp at hx
  | cons y l ih =>
    intro x hx
    rw [foldr_max_cons]
    rcases List.mem_cons.mp hx with rfl | hx'
    · exact le_max_left _ _
    · exact le_trans (ih x hx') (le_max_right _ _)

theorem foldr_max_le (f : Cell → Nat) :
    ∀ (l : List Cell) (m : Nat), (∀ x ∈ l, f x ≤ m) → (l.map f).foldr max 0 ≤ m := by
  intro l
  induction l with
  | nil => intro m _; exact Nat.zero_le m
  | cons y l ih =>
    intro m h
    rw [foldr_max_cons]
    exact max_le (h y (List.mem_cons_self _ _)) (ih m (fun x hx => h x (List.mem_cons_of_mem _ hx)))

theorem foldr_max_attained (f : Cell → Nat) :
    ∀ (l : List Cell), l ≠ [] → ∃ x ∈ l, f x = (l.map f).foldr max 0 := by
  intro l
  induction l with
  | nil => intro h; exact absurd rfl h
  | cons y l ih =>
    intro _
    rw [foldr_max_cons]
    rcases le_or_lt ((l.map f).foldr max 0) (f y) with h | h
    · exact ⟨y, List.mem_cons_self _ _, (max_eq_left h).symm⟩
    · cases l with
      | nil => simp at h
      | cons z l' =>
        obtain ⟨x, hx, he⟩ := ih (by simp)
        exact ⟨x, List.mem_cons_of_mem _ hx, by rw [max_eq_right (le_of_lt h), he]⟩

/-- The left fold that keeps the earlier element on ties selects the first
element of `b :: ks` whose score is maximal. -/
theorem foldl_argmax (f : Cell → Nat) :
    ∀ (ks : List Cell) (b : Cell),
      ks.foldl (fun b k => if f b < f k then k else b) b =
        ((b :: ks).filter (fun x => decide (f x = ((b :: ks).map f).foldr max 0))).headD [] := by
  intro ks
  induction ks with
  | nil =>
    intro b
    have h : max (f b) 0 = f b := Nat.max_zero (f b)
    rw [List.filter_cons_of_pos (by rw [foldr_max_cons]; simp [h])]
    rfl
  | cons k ks ih =>
    intro b
    rw [List.foldl_cons, ih (if f b < f k then k else b)]
    by_cases hbk : f b < f k
    · rw [if_pos hbk]
      have hkM : f k ≤ ((k :: ks).map f).foldr max 0 :=
        le_foldr_max f _ k (List.mem_cons_self _ _)
      have hM : ((b :: k :: ks).map f).foldr max 0 = ((k :: ks).map f).foldr max 0 := by
        rw [foldr_max_cons]
        exact max_eq_right (le_trans (le_of_lt hbk) hkM)
      rw [hM]
      have hrw : (b :: k :: ks).filter
          (fun x => decide (f x = ((k :: ks).map f).foldr max 0)) =
        (k :: ks).filter (fun x => decide (f x = ((k :: ks).map f).foldr max 0)) := by
        apply List.filter_cons_of_neg
        simp only [decide_eq_true_eq]
        intro he
        omega
      rw [hrw]
    · rw [if_neg hbk]
      have hk : f k ≤ f b := le_of_not_lt hbk
      have hM : ((b :: k :: ks).map f).foldr max 0 = ((b :: ks).map f).foldr max 0 := by
        rw [foldr_max_cons, foldr_max_cons, foldr_max_cons, ← max_assoc, max_eq_left hk]
      rw [hM]
      by_cases hb : f b = ((b :: ks).map f).foldr max 0
      · rw [List.filter_cons_of_pos (by simp only [decide_eq_true_eq]; exact hb),
          List.filter_cons_of_pos (by simp only [decide_eq_true_eq]; exact hb)]
        rfl
      · have hbM : f b ≤ ((b :: ks).map f).foldr max 0 :=
          le_foldr_max f (b :: ks) b (List.mem_cons_self _ _)
        have hkM : ¬ (f k = ((b :: ks).map f).foldr max 0) := fun he => hb (by omega)
        rw [List.filter_cons_of_neg (by simp only [decide_eq_true_eq]; exact hb),
          List.filter_cons_of_neg (by simp only [decide_eq_true_eq]; exact hb),
          List.filter_cons_of_neg (by simp only [decide_eq_true_eq]; exact hkM)]

theorem mem_counterKeys (x : Cell) :
    ∀ (l : List Cell), x ∈ counterKeys l ↔ x ∈ l := by
  intro l
  induction l with
  | nil => simp [counterKeys]
  | cons y l ih =>
    show x ∈ y :: (counterKeys l).filter (fun z => decide (z ≠ y)) ↔ _
    by_cases hxy : x = y
    · subst hxy
      simp [List.mem_cons]
    · simp only [List.mem_cons, List.mem_filter, decide_eq_true_eq]
      constructor
      · rintro (rfl | ⟨h, _⟩)
        · exact absurd rfl hxy
        · exact Or.inr (ih.mp h)
      · rintro (rfl | h)
        · exact absurd rfl hxy
        · exact Or.inr ⟨ih.mpr h, hxy⟩

theorem counterKeys_ne_nil (x : Cell) (l : List Cell) : counterKeys (x :: l) ≠ [] := by
  show x :: (counterKeys l).filter (fun z => decide (z ≠ x)) ≠ []
  simp

theorem foldr_max_counterKeys (f : Cell → Nat) (l : List Cell) :
    ((counterKeys l).map f).foldr max 0 = (l.map f).foldr max 0 := by
  apply le_antisymm
  · exact foldr_max_le f _ _ (fun x hx => le_foldr_max f l x ((mem_counterKeys x l).mp hx))
  · exact foldr_max_le f _ _ (fun x hx => le_foldr_max f _ x ((mem_counterKeys x l).mpr hx))

theorem filter_counterKeys_headD (p : Cell → Bool) :
    ∀ (l : List Cell), ((counterKeys l).filter p).headD [] = (l.filter p).headD [] := by
  intro l
  induction l with
  | nil => rfl
  | cons y l ih =>
    show ((y :: (counterKeys l).filter (fun z => decide (z ≠ y))).filter p).headD [] = _
    by_cases hy : p y = true
    · rw [List.filter_cons_of_pos hy, List.filter_cons_of_pos hy]
      rfl
    · rw [List.filter_cons_of_neg hy, List.filter_cons_of_neg hy, List.filter_filter]
      have he : (counterKeys l).filter (fun a => p a && decide (a ≠ y)) = (counterKeys l).filter p := by
        apply List.filter_congr
        intro x _
        by_cases hxy : x = y
        · subst hxy
          simp [Bool.eq_false_iff.mpr (by simpa using hy)]
        · simp [hxy]
      rw [he, ih]

/-- C6: for a non-empty column, the character selected by
`Counter(col).most_common(1)[0]` has the maximum count, and among the
characters sharing that maximum count it is the one first encountered
scanning the column from sequence 0 downward (the head of the filtered scan
order). -/
theorem C6_tie_break_first_encountered (col : List Cell) (h : col ≠ []) :
    col.count (mostCommonChar col) = maxCount col ∧
    mostCommonChar col =
      (col.filter (fun x => decide (col.count x = maxCount col))).headD [] := by
  have hchar : mostCommonChar col =
      (col.filter (fun x => decide (col.count x = maxCount col))).headD [] := by
    unfold mostCommonChar
    cases hk : counterKeys col with
    | nil =>
      cases col with
      | nil => exact absurd rfl h
      | cons y l => exact absurd hk (counterKeys_ne_nil y l)
    | cons k ks =>
      have h1 := foldl_argmax (fun x => col.count x) ks k
      have h2 : ((counterKeys col).map (fun x => col.count x)).foldr max 0 = maxCount col :=
        foldr_max_counterKeys _ col
      have h3 := filter_counterKeys_headD (fun x => decide (col.count x = maxCount col)) col
      rw [hk] at h2 h3
      rw [List.headD_cons, List.foldl_cons, if_neg (lt_irrefl _), h1, h2, h3]
  refine ⟨?_, hchar⟩
  obtain ⟨x, hx, he⟩ := foldr_max_attained (fun x => col.count x) col h
  have hne : col.filter (fun x => decide (col.count x = maxCount col)) ≠ [] := by
    intro hnil
    have : x ∈ col.filter (fun x => decide (col.count x = maxCount col)) :=
      List.mem_filter.mpr ⟨hx, by simpa [maxCount] using he⟩
    rw [hnil] at this
    simp at this
  have hmem : mostCommonChar col ∈ col.filter (fun x => decide (col.count x = maxCount col)) := by
    rw [hchar]
    cases hf : col.filter (fun x => decide (col.count x = maxCount col)) with
    | nil => exact absurd hf hne
    | cons a l => exact List.mem_cons_self a l
  simpa using (List.mem_filter.mp hmem).2

theorem C6_tie_break_first_encountered_witness :
    ([['B'], ['A'], ['A'], ['B'], ['C']] : List Cell) ≠ [] ∧
    ((([['B'], ['A'], ['A'], ['B'], ['C']] : List Cell)).count
        (mostCommonChar [['B'], ['A'], ['A'], ['B'], ['C']]) =
      maxCount [['B'], ['A'], ['A'], ['B'], ['C']] ∧
     mostCommonChar [['B'], ['A'], ['A'], ['B'], ['C']] =
      (([['B'], ['A'], ['A'], ['B'], ['C']] : List Cell).filter
        (fun x => decide (([['B'], ['A'], ['A'], ['B'], ['C']] : List Cell).count x =
          maxCount [['B'], ['A'], ['A'], ['B'], ['C']]))).headD []) ∧
    mostCommonChar [['B'], ['A'], ['A'], ['B'], ['C']] = ['B'] :=
  ⟨by decide, C6_tie_break_first_encountered _ (by decide), by decide⟩

/-! ### C7: replace-based marker collapse -/

theorem replaceStr_cons_neg (pat repl : List Char) (c : Char) (rest : List Char)
    (h : pat.isPrefixOf (c :: rest) = false) :
    replaceStr pat repl (c :: rest) = c :: replaceStr pat repl rest := by
  rw [replaceStr, h]
  simp

theorem replaceStr_cons_pos (pat repl : List Char) (c : Char) (rest : List Char)
    (h : pat.isPrefixOf (c :: rest) = true) (hne : pat ≠ []) :
    replaceStr pat repl (c :: rest) = repl ++ replaceStr pat repl (rest.drop (pat.length - 1)) := by
  rw [replaceStr, h]
  have : pat.isEmpty = false := by
    cases pat with
    | nil => exact absurd rfl hne
    | cons a l => rfl
  rw [this]
  simp

theorem isPrefixOf_cons_ne (p1 : Char) (pt : List Char) (c : Char) (rest : List Char)
    (h : p1 ≠ c) : (p1 :: pt).isPrefixOf (c :: rest) = false := by
  simp [List.isPrefixOf, h]

theorem isPrefixOf_single (q : Char) (rest : List Char) :
    [q].isPrefixOf (q :: rest) = true := by
  simp [List.isPrefixOf]

theorem isPrefixOf_pair (p1 p2 : Char) (rest : List Char) :
    [p1, p2].isPrefixOf (p1 :: p2 :: rest) = true := by
  simp [List.isPrefixOf]

theorem isPrefixOf_pair_neg (p1 p2 : Char) (s : List Char) (h : p2 ∉ s) :
    [p1, p2].isPrefixOf (p1 :: s) = false := by
  cases s with
  | nil => simp [List.isPrefixOf]
  | cons c rest =>
    have hc : p2 ≠ c := fun he => h (he ▸ List.mem_cons_self c rest)
    simp [List.isPrefixOf, hc]

theorem replaceStr_not_mem (p1 : Char) (pt repl : List Char) :
    ∀ (s : List Char), p1 ∉ s → replaceStr (p1 :: pt) repl s = s := by
  intro s
  induction s with
  | nil => intro _; simp [replaceStr]
  | cons c rest ih =>
    intro h
    have hc : p1 ≠ c := fun he => h (he ▸ List.mem_cons_self c rest)
    rw [replaceStr_cons_neg _ _ _ _ (isPrefixOf_cons_ne p1 pt c rest hc),
      ih (fun hm => h (List.mem_cons_of_mem _ hm))]

theorem replaceStr_single_cons (q : Char) (repl : List Char) (rest : List Char) :
    replaceStr [q] repl (q :: rest) = repl ++ replaceStr [q] repl rest := by
  rw [replaceStr_cons_pos _ _ _ _ (isPrefixOf_single q rest) (by simp)]
  simp

theorem replaceStr_single_append (q : Char) (repl : List Char) :
    ∀ (a b : List Char),
      replaceStr [q] repl (a ++ b) = replaceStr [q] repl a ++ replaceStr [q] repl b := by
  intro a
  induction a with
  | nil => intro b; simp [replaceStr]
  | cons c a' ih =>
    intro b
    by_cases hc : q = c
    · subst hc
      rw [List.cons_append, replaceStr_single_cons, replaceStr_single_cons, ih,
        List.append_assoc]
    · rw [List.cons_append,
        replaceStr_cons_neg _ _ _ _ (isPrefixOf_cons_ne q [] c (a' ++ b) hc),
        replaceStr_cons_neg _ _ _ _ (isPrefixOf_cons_ne q [] c a' hc), ih,
        List.cons_append]

theorem replaceStr_pair_split (p1 p2 : Char) (repl : List Char) :
    ∀ (a b : List Char), p1 ∉ a →
      replaceStr [p1, p2] repl (a ++ p1 :: p2 :: b) = a ++ repl ++ replaceStr [p1, p2] repl b := by
  intro a
  induction a with
  | nil =>
    intro b _
    rw [List.nil_append,
      replaceStr_cons_pos _ _ _ _ (isPrefixOf_pair p1 p2 b) (by simp)]
    simp
  | cons c a' ih =>
    intro b h
    have hc : p1 ≠ c := fun he => h (he ▸ List.mem_cons_self c a')
    rw [List.cons_append,
      replaceStr_cons_neg _ _ _ _ (isPrefixOf_cons_ne p1 [p2] c _ hc),
      ih b (fun hm => h (List.mem_cons_of_mem _ hm)), List.cons_append, List.cons_append]

theorem replaceStr_pair_none (p1 p2 : Char) (repl : List Char) (x : Char) (s : List Char)
    (hxs : [p1, p2].isPrefixOf (x :: s) = false) (hs : p1 ∉ s) :
    ∀ (a : List Char), p1 ∉ a →
      replaceStr [p1, p2] repl (a ++ x :: s) = a ++ x :: s := by
  intro a
  induction a with
  | nil =>
    intro _
    rw [List.nil_append, replaceStr_cons_neg _ _ _ _ hxs, replaceStr_not_mem p1 [p2] repl s hs]
  | cons c a' ih =>
    intro h
    have hc : p1 ≠ c := fun he => h (he ▸ List.mem_cons_self c a')
    rw [List.cons_append,
      replaceStr_cons_neg _ _ _ _ (isPrefixOf_cons_ne p1 [p2] c _ hc),
      ih (fun hm => h (List.mem_cons_of_mem _ hm))]

theorem noMarks_notL {l : List Char} (h : noMarks l) : ('[' : Char) ∉ l :=
  fun hm => (h _ hm).1 rfl

theorem noMarks_notR {l : List Char} (h : noMarks l) : (']' : Char) ∉ l :=
  fun hm => (h _ hm).2.1 rfl

theorem noMarks_notLp {l : List Char} (h : noMarks l) : ('(' : Char) ∉ l :=
  fun hm => (h _ hm).2.2.1 rfl

theorem noMarks_notRp {l : List Char} (h : noMarks l) : (')' : Char) ∉ l :=
  fun hm => (h _ hm).2.2.2 rfl

/-- Replacing the single character `q` in `a ++ q :: b` when `q` occurs
nowhere else. -/
theorem replaceStr_single_compound (q : Char) (repl a b : List Char)
    (ha : q ∉ a) (hb : q ∉ b) :
    replaceStr [q] repl (a ++ q :: b) = a ++ repl ++ b := by
  rw [replaceStr_single_append, replaceStr_not_mem q [] repl a ha, replaceStr_single_cons,
    replaceStr_not_mem q [] repl b hb, List.append_assoc]

theorem not_mem_append2 {q : Char} {l1 l2 : List Char} (h1 : q ∉ l1) (h2 : q ∉ l2) :
    q ∉ l1 ++ l2 :=
  fun hm => match List.mem_append.mp hm with
    | .inl h => h1 h
    | .inr h => h2 h

theorem not_mem_cons2 {q c : Char} {l : List Char} (h1 : q ≠ c) (h2 : q ∉ l) :
    q ∉ c :: l :=
  fun hm => match List.mem_cons.mp hm with
    | .inl h => h1 h
    | .inr h => h2 h

/-- C7: in the DOC converter, the redundant close+open pairs `][` and `)(`
between two adjacent same-class runs are deleted before the remaining
brackets become display tags, so two same-class runs separated only by such a
pair yield one continuous span with a single open/close tag pair.  Stated for
an alignment block `p ++ "[" ++ r1 ++ "][" ++ r2 ++ "]" ++ s` (and the `(…)`
variant) whose context and run bodies contain no marker characters: the first
and third conjuncts give the text after the two deletion passes, the second
and fourth the fully converted output with its single tag pair. -/
theorem C7_pair_collapse (p r1 r2 s : List Char)
    (hp : noMarks p) (h1 : noMarks r1) (h2 : noMarks r2) (hs : noMarks s) :
    (replaceStr ")(".toList [] (replaceStr "][".toList []
        (p ++ '[' :: r1 ++ ']' :: '[' :: r2 ++ ']' :: s)) =
      p ++ '[' :: r1 ++ r2 ++ ']' :: s) ∧
    (docTags (p ++ '[' :: r1 ++ ']' :: '[' :: r2 ++ ']' :: s) =
      p ++ "<em class=\"high\">".toList ++ r1 ++ r2 ++ "</em>".toList ++ s) ∧
    (replaceStr ")(".toList [] (replaceStr "][".toList []
        (p ++ '(' :: r1 ++ ')' :: '(' :: r2 ++ ')' :: s)) =
      p ++ '(' :: r1 ++ r2 ++ ')' :: s) ∧
    (docTags (p ++ '(' :: r1 ++ ')' :: '(' :: r2 ++ ')' :: s) =
      p ++ "<em class=\"low\">".toList ++ r1 ++ r2 ++ "</em>".toList ++ s) := by
  have hb1 : ("][".toList : List Char) = [']', '['] := rfl
  have hb2 : (")(".toList : List Char) = [')', '('] := rfl
  have hb3 : ("[".toList : List Char) = ['['] := rfl
  have hb4 : ("]".toList : List Char) = [']'] := rfl
  have hb5 : ("(".toList : List Char) = ['('] := rfl
  have hb6 : (")".toList : List Char) = [')'] := rfl
  -- the high-class scenario
  have e1 : replaceStr [']', '['] [] (p ++ '[' :: r1 ++ ']' :: '[' :: r2 ++ ']' :: s) =
      p ++ '[' :: r1 ++ r2 ++ ']' :: s := by
    have sh1 : p ++ '[' :: r1 ++ ']' :: '[' :: r2 ++ ']' :: s =
        (p ++ '[' :: r1) ++ ']' :: '[' :: (r2 ++ ']' :: s) := by
      simp
    rw [sh1,
      replaceStr_pair_split ']' '[' [] (p ++ '[' :: r1) (r2 ++ ']' :: s)
        (not_mem_append2 (noMarks_notR hp) (not_mem_cons2 (by decide) (noMarks_notR h1))),
      replaceStr_pair_none ']' '[' [] ']' s
        (isPrefixOf_pair_neg ']' '[' s (noMarks_notL hs)) (noMarks_notR hs) r2
        (noMarks_notR h2)]
    simp
  have hnoRp : (')' : Char) ∉ p ++ '[' :: r1 ++ r2 ++ ']' :: s :=
    not_mem_append2 (not_mem_append2
      (not_mem_append2 (noMarks_notRp hp) (not_mem_cons2 (by decide) (noMarks_notRp h1)))
      (noMarks_notRp h2)) (not_mem_cons2 (by decide) (noMarks_notRp hs))
  have e2 : replaceStr [')', '('] [] (p ++ '[' :: r1 ++ r2 ++ ']' :: s) =
      p ++ '[' :: r1 ++ r2 ++ ']' :: s :=
    replaceStr_not_mem ')' ['('] [] _ hnoRp
  have highDel : replaceStr ")(".toList [] (replaceStr "][".toList []
      (p ++ '[' :: r1 ++ ']' :: '[' :: r2 ++ ']' :: s)) =
      p ++ '[' :: r1 ++ r2 ++ ']' :: s := by
    rw [hb1, hb2, e1, e2]
  have sh2 : p ++ '[' :: r1 ++ r2 ++ ']' :: s =
      p ++ '[' :: (r1 ++ r2 ++ ']' :: s) := by
    simp
  have hXL : ('[' : Char) ∉ r1 ++ r2 ++ ']' :: s :=
    not_mem_append2 (not_mem_append2 (noMarks_notL h1) (noMarks_notL h2))
      (not_mem_cons2 (by decide) (noMarks_notL hs))
  have e3 : replaceStr ['['] "<em class=\"high\">".toList (p ++ '[' :: r1 ++ r2 ++ ']' :: s) =
      (p ++ "<em class=\"high\">".toList) ++ (r1 ++ r2 ++ ']' :: s) := by
    rw [sh2]
    exact replaceStr_single_compound '[' _ p _ (noMarks_notL hp) hXL
  have sh3 : (p ++ "<em class=\"high\">".toList) ++ (r1 ++ r2 ++ ']' :: s) =
      (p ++ "<em class=\"high\">".toList ++ r1 ++ r2) ++ ']' :: s := by
    simp
  have hYR : (']' : Char) ∉ p ++ "<em class=\"high\">".toList ++ r1 ++ r2 :=
    not_mem_append2 (not_mem_append2
      (not_mem_append2 (noMarks_notR hp) (by decide)) (noMarks_notR h1)) (noMarks_notR h2)
  have e4 : replaceStr [']'] "</em>".toList
      ((p ++ "<em class=\"high\">".toList ++ r1 ++ r2) ++ ']' :: s) =
      p ++ "<em class=\"high\">".toList ++ r1 ++ r2 ++ "</em>".toList ++ s :=
    replaceStr_single_compound ']' _ _ s hYR (noMarks_notR hs)
  have hZLp : ('(' : Char) ∉ p ++ "<em class=\"high\">".toList ++ r1 ++ r2 ++ "</em>".toList ++ s :=
    not_mem_append2 (not_mem_append2 (not_mem_append2 (not_mem_append2
      (not_mem_append2 (noMarks_notLp hp) (by decide)) (noMarks_notLp h1))
      (noMarks_notLp h2)) (by decide)) (noMarks_notLp hs)
  have hZRp : (')' : Char) ∉ p ++ "<em class=\"high\">".toList ++ r1 ++ r2 ++ "</em>".toList ++ s :=
    not_mem_append2 (not_mem_append2 (not_mem_append2 (not_mem_append2
      (not_mem_append2 (noMarks_notRp hp) (by decide)) (noMarks_notRp h1))
      (noMarks_notRp h2)) (by decide)) (noMarks_notRp hs)
  have highConv : docTags (p ++ '[' :: r1 ++ ']' :: '[' :: r2 ++ ']' :: s) =
      p ++ "<em class=\"high\">".toList ++ r1 ++ r2 ++ "</em>".toList ++ s := by
    simp only [docTags]
    rw [hb1, hb2, hb3, hb4, hb5, hb6, e1, e2, e3, sh3, e4,
      replaceStr_not_mem '(' [] _ _ hZLp, replaceStr_not_mem ')' [] _ _ hZRp]
  -- the low-class scenario
  have hnoR2 : (']' : Char) ∉ p ++ '(' :: r1 ++ ')' :: '(' :: r2 ++ ')' :: s :=
    not_mem_append2 (not_mem_append2
      (not_mem_append2 (noMarks_notR hp) (not_mem_cons2 (by decide) (noMarks_notR h1)))
      (not_mem_cons2 (by decide) (not_mem_cons2 (by decide) (noMarks_notR h2))))
      (not_mem_cons2 (by decide) (noMarks_notR hs))
  have f1 : replaceStr [']', '['] [] (p ++ '(' :: r1 ++ ')' :: '(' :: r2 ++ ')' :: s) =
      p ++ '(' :: r1 ++ ')' :: '(' :: r2 ++ ')' :: s :=
    replaceStr_not_mem ']' ['['] [] _ hnoR2
  have f2 : replaceStr [')', '('] [] (p ++ '(' :: r1 ++ ')' :: '(' :: r2 ++ ')' :: s) =
      p ++ '(' :: r1 ++ r2 ++ ')' :: s := by
    have sh1 : p ++ '(' :: r1 ++ ')' :: '(' :: r2 ++ ')' :: s =
        (p ++ '(' :: r1) ++ ')' :: '(' :: (r2 ++ ')' :: s) := by
      simp
    rw [sh1,
      replaceStr_pair_split ')' '(' [] (p ++ '(' :: r1) (r2 ++ ')' :: s)
        (not_mem_append2 (noMarks_notRp hp) (not_mem_cons2 (by decide) (noMarks_notRp h1))),
      replaceStr_pair_none ')' '(' [] ')' s
        (isPrefixOf_pair_neg ')' '(' s (noMarks_notLp hs)) (noMarks_notRp hs) r2
        (noMarks_notRp h2)]
    simp
  have lowDel : replaceStr ")(".toList [] (replaceStr "][".toList []
      (p ++ '(' :: r1 ++ ')' :: '(' :: r2 ++ ')' :: s)) =
      p ++ '(' :: r1 ++ r2 ++ ')' :: s := by
    rw [hb1, hb2, f1, f2]
  have hnoL2 : ('[' : Char) ∉ p ++ '(' :: r1 ++ r2 ++ ')' :: s :=
    not_mem_append2 (not_mem_append2
      (not_mem_append2 (noMarks_notL hp) (not_mem_cons2 (by decide) (noMarks_notL h1)))
      (noMarks_notL h2)) (not_mem_cons2 (by decide) (noMarks_notL hs))
  have hnoR3 : (']' : Char) ∉ p ++ '(' :: r1 ++ r2 ++ ')' :: s :=
    not_mem_append2 (not_mem_append2
      (not_mem_append2 (noMarks_notR hp) (not_mem_cons2 (by decide) (noMarks_notR h1)))
      (noMarks_notR h2)) (not_mem_cons2 (by decide) (noMarks_notR hs))
  have sh2' : p ++ '(' :: r1 ++ r2 ++ ')' :: s =
      p ++ '(' :: (r1 ++ r2 ++ ')' :: s) := by
    simp
  have hXLp : ('(' : Char) ∉ r1 ++ r2 ++ ')' :: s :=
    not_mem_append2 (not_mem_append2 (noMarks_notLp h1) (noMarks_notLp h2))
      (not_mem_cons2 (by decide) (noMarks_notLp hs))
  have f3 : replaceStr ['('] "<em class=\"low\">".toList (p ++ '(' :: r1 ++ r2 ++ ')' :: s) =
      (p ++ "<em class=\"low\">".toList) ++ (r1 ++ r2 ++ ')' :: s) := by
    rw [sh2']
    exact replaceStr_single_compound '(' _ p _ (noMarks_notLp hp) hXLp
  have sh3' : (p ++ "<em class=\"low\">".toList) ++ (r1 ++ r2 ++ ')' :: s) =
      (p ++ "<em class=\"low\">".toList ++ r1 ++ r2) ++ ')' :: s := by
    simp
  have hYRp : (')' : Char) ∉ p ++ "<em class=\"low\">".toList ++ r1 ++ r2 :=
    not_mem_append2 (not_mem_append2
      (not_mem_append2 (noMarks_notRp hp) (by decide)) (noMarks_notRp h1)) (noMarks_notRp h2)
  have f4 : replaceStr [')'] "</em>".toList
      ((p ++ "<em class=\"low\">".toList ++ r1 ++ r2) ++ ')' :: s) =
      p ++ "<em class=\"low\">".toList ++ r1 ++ r2 ++ "</em>".toList ++ s :=
    replaceStr_single_compound ')' _ _ s hYRp (noMarks_notRp hs)
  have lowConv : docTags (p ++ '(' :: r1 ++ ')' :: '(' :: r2 ++ ')' :: s) =
      p ++ "<em class=\"low\">".toList ++ r1 ++ r2 ++ "</em>".toList ++ s := by
    simp only [docTags]
    rw [hb1, hb2, hb3, hb4, hb5, hb6, f1, f2,
      replaceStr_not_mem '[' [] _ _ hnoL2, replaceStr_not_mem ']' [] _ _ hnoR3,
      f3, sh3', f4]
  exact ⟨highDel, highConv, lowDel, lowConv⟩

theorem C7_pair_collapse_witness :
    noMarks "xx".toList ∧ noMarks "AB".toList ∧ noMarks "CD".toList ∧ noMarks "yy".toList ∧
    docTags ("xx".toList ++ '[' :: "AB".toList ++ ']' :: '[' :: "CD".toList ++ ']' :: "yy".toList) =
      "xx".toList ++ "<em class=\"high\">".toList ++ "AB".toList ++ "CD".toList ++
        "</em>".toList ++ "yy".toList :=
  ⟨by decide, by decide, by decide, by decide,
    (C7_pair_collapse "xx".toList "AB".toList "CD".toList "yy".toList
      (by decide) (by decide) (by decide) (by decide)).2.1⟩

/-! ### C9: the MSF parser -/

theorem msf_fold_flush :
    ∀ (ls : List (List Char)) (d : List (List Char × List Char)) (cur : List (List Char)),
      (if (ls.foldl msfStep (d, cur)).2 ≠ [] then
        (ls.foldl msfStep (d, cur)).2.foldl processBlockLine (ls.foldl msfStep (d, cur)).1
      else (ls.foldl msfStep (d, cur)).1) =
      (cur ++ ls.filter (fun l => !decide (stripPy l = []))).foldl processBlockLine d := by
  intro ls
  induction ls with
  | nil =>
    intro d cur
    rw [List.foldl_nil, List.filter_nil, List.append_nil]
    cases cur with
    | nil => rw [if_neg (by simp)]; rfl
    | cons a l => rw [if_pos (by simp)]
  | cons l ls ih =>
    intro d cur
    rw [List.foldl_cons]
    by_cases hb : stripPy l = []
    · have hfil : (l :: ls).filter (fun l => !decide (stripPy l = [])) =
          ls.filter (fun l => !decide (stripPy l = [])) := by
        rw [List.filter_cons_of_neg (by simp [hb])]
      cases cur with
      | nil =>
        have hstep : msfStep (d, ([] : List (List Char))) l = (d, []) := by
          simp [msfStep, hb]
        rw [hstep, ih d [], hfil]
      | cons a cur' =>
        have hstep : msfStep (d, a :: cur') l = ((a :: cur').foldl processBlockLine d, []) := by
          simp [msfStep, hb]
        rw [hstep, ih _ [], hfil]
        simp only [List.nil_append]
        rw [List.foldl_append]
    · have hstep : msfStep (d, cur) l = (d, cur ++ [l]) := by
        simp [msfStep, hb]
      have hfil : (l :: ls).filter (fun l => !decide (stripPy l = [])) =
          l :: ls.filter (fun l => !decide (stripPy l = [])) := by
        rw [List.filter_cons_of_pos (by simp [hb])]
      rw [hstep, ih d (cur ++ [l]), hfil, List.append_assoc, List.singleton_append]

theorem processBlockLine_entry (d : List (List Char × List Char)) (bl : List Char) :
    processBlockLine d bl =
      match entryOfLine bl with
      | none => d
      | some e => dictAdd d e.1 e.2 := by
  unfold processBlockLine entryOfLine
  cases h : splitWs (stripPy bl) with
  | nil => rfl
  | cons t rest =>
    by_cases h1 : isDigitStr t = true
    · simp only [if_pos h1]
    · by_cases h2 : lowerStr t = "consensus".toList
      · simp only [if_neg h1, if_pos h2]
      · simp only [if_neg h1, if_neg h2]

theorem foldl_pbl_filterMap :
    ∀ (ls : List (List Char)) (d : List (List Char × List Char)),
      ls.foldl processBlockLine d =
        (ls.filterMap entryOfLine).foldl (fun d e => dictAdd d e.1 e.2) d := by
  intro ls
  induction ls with
  | nil => intro d; rfl
  | cons bl ls ih =>
    intro d
    rw [List.foldl_cons, ih, processBlockLine_entry]
    cases he : entryOfLine bl with
    | none => rw [List.filterMap_cons_none he]
    | some e => rw [List.filterMap_cons_some he, List.foldl_cons]

theorem entryOfLine_blank (bl : List Char) (h : stripPy bl = []) : entryOfLine bl = none := by
  unfold entryOfLine
  rw [h]
  rfl

theorem filterMap_entry_filter :
    ∀ (ls : List (List Char)),
      (ls.filter (fun l => !decide (stripPy l = []))).filterMap entryOfLine =
        ls.filterMap entryOfLine := by
  intro ls
  induction ls with
  | nil => rfl
  | cons l ls ih =>
    by_cases hb : stripPy l = []
    · rw [List.filter_cons_of_neg (by simp [hb]), ih,
        List.filterMap_cons_none (entryOfLine_blank l hb)]
    · rw [List.filter_cons_of_pos (by simp [hb]), List.filterMap_cons, List.filterMap_cons]
      rw [ih]

theorem parse_msf_eq_entries (lines : List (List Char)) :
    parse_msf lines =
      (effectiveEntries lines).foldl (fun d e => dictAdd d e.1 e.2) [] := by
  unfold parse_msf effectiveEntries
  rw [msf_fold_flush (lines.drop (msfStart lines)) [] [], List.nil_append,
    foldl_pbl_filterMap, filterMap_entry_filter]

theorem dictAdd_keys (d : List (List Char × List Char)) (n seg : List Char) :
    (dictAdd d n seg).map Prod.fst =
      if n ∈ d.map Prod.fst then d.map Prod.fst else d.map Prod.fst ++ [n] := by
  have hany : (d.any (fun p => decide (p.1 = n)) = true) ↔ n ∈ d.map Prod.fst := by
    rw [List.any_eq_true]
    constructor
    · rintro ⟨x, hx, he⟩
      exact List.mem_map.mpr ⟨x, hx, of_decide_eq_true he⟩
    · rintro hm
      obtain ⟨x, hx, he⟩ := List.mem_map.mp hm
      exact ⟨x, hx, decide_eq_true he⟩
  unfold dictAdd
  by_cases hm : n ∈ d.map Prod.fst
  · rw [if_pos (hany.mpr hm), if_pos hm, List.map_map]
    apply List.map_congr_left
    intro p _
    simp only [Function.comp_apply]
    split <;> rfl
  · rw [if_neg (fun h => hm (hany.mp h)), if_neg hm]
    simp

theorem dictAdd_keys_nodup (d : List (List Char × List Char)) (n seg : List Char)
    (hnd : (d.map Prod.fst).Nodup) : ((dictAdd d n seg).map Prod.fst).Nodup := by
  rw [dictAdd_keys]
  by_cases hm : n ∈ d.map Prod.fst
  · rw [if_pos hm]; exact hnd
  · rw [if_neg hm]
    rw [List.nodup_append]
    exact ⟨hnd, List.nodup_singleton n,
      fun a ha hb => hm ((List.mem_singleton.mp hb) ▸ ha)⟩

theorem foldl_dictAdd_keys :
    ∀ (es : List (List Char × List Char)) (d : List (List Char × List Char)),
      ((es.foldl (fun d e => dictAdd d e.1 e.2) d).map Prod.fst) =
        dedupAppend (d.map Prod.fst) (es.map Prod.fst) := by
  intro es
  induction es with
  | nil => intro d; rfl
  | cons e es ih =>
    intro d
    rw [List.foldl_cons, ih, List.map_cons]
    show _ = if e.1 ∈ d.map Prod.fst then dedupAppend (d.map Prod.fst) (es.map Prod.fst)
      else dedupAppend (d.map Prod.fst ++ [e.1]) (es.map Prod.fst)
    rw [dictAdd_keys]
    by_cases hm : e.1 ∈ d.map Prod.fst
    · rw [if_pos hm, if_pos hm]
    · rw [if_neg hm, if_neg hm]

theorem foldl_dictAdd_nodup :
    ∀ (es : List (List Char × List Char)) (d : List (List Char × List Char)),
      (d.map Prod.fst).Nodup →
      ((es.foldl (fun d e => dictAdd d e.1 e.2) d).map Prod.fst).Nodup := by
  intro es
  induction es with
  | nil => intro d h; exact h
  | cons e es ih =>
    intro d h
    rw [List.foldl_cons]
    exact ih _ (dictAdd_keys_nodup d e.1 e.2 h)

theorem filter_key_unique :
    ∀ (d : List (List Char × List Char)), (d.map Prod.fst).Nodup →
      ∀ q ∈ d, d.filter (fun p => decide (p.1 = q.1)) = [q] := by
  intro d
  induction d with
  | nil => intro _ q hq; simp at hq
  | cons r d ih =>
    intro hnd q hq
    rw [List.map_cons, List.nodup_cons] at hnd
    rcases List.mem_cons.mp hq with rfl | hq'
    · rw [List.filter_cons_of_pos (by simp)]
      have : d.filter (fun p => decide (p.1 = q.1)) = [] := by
        rw [List.filter_eq_nil_iff]
        intro p hp
        simp only [decide_eq_true_eq]
        exact fun he => hnd.1 (he ▸ List.mem_map.mpr ⟨p, hp, rfl⟩)
      rw [this]
    · have hne : r.1 ≠ q.1 :=
        fun he => hnd.1 (he ▸ List.mem_map.mpr ⟨q, hq', rfl⟩)
      rw [List.filter_cons_of_neg (by simpa using hne), ih hnd.2 q hq']

theorem valcat_dictAdd (d : List (List Char × List Char)) (n m seg : List Char)
    (hnd : (d.map Prod.fst).Nodup) :
    (((dictAdd d m seg).filter (fun p => decide (p.1 = n))).map Prod.snd).flatten =
      ((d.filter (fun p => decide (p.1 = n))).map Prod.snd).flatten ++
        (if n = m then seg else []) := by
  have hany : (d.any (fun p => decide (p.1 = m)) = true) ↔ m ∈ d.map Prod.fst := by
    rw [List.any_eq_true]
    constructor
    · rintro ⟨x, hx, he⟩
      exact List.mem_map.mpr ⟨x, hx, of_decide_eq_true he⟩
    · rintro hm
      obtain ⟨x, hx, he⟩ := List.mem_map.mp hm
      exact ⟨x, hx, decide_eq_true he⟩
  unfold dictAdd
  by_cases hm : m ∈ d.map Prod.fst
  · rw [if_pos (hany.mpr hm)]
    have hff : ∀ (p : List Char × List Char),
        ((if p.1 = m then (p.1, p.2 ++ seg) else p) : List Char × List Char).1 = p.1 := by
      intro p; split <;> rfl
    rw [List.filter_map]
    have hpc : (d.filter ((fun p => decide (p.1 = n)) ∘
        (fun p => if p.1 = m then (p.1, p.2 ++ seg) else p))) =
        d.filter (fun p => decide (p.1 = n)) := by
      apply List.filter_congr
      intro p _
      simp only [Function.comp_apply, hff p]
    rw [hpc]
    by_cases hnm : n = m
    · subst hnm
      obtain ⟨q, hq, hqn⟩ := List.mem_map.mp hm
      have hfu := filter_key_unique d hnd q hq
      rw [hqn] at hfu
      rw [hfu]
      simp [hqn]
    · have hmapid : (d.filter (fun p => decide (p.1 = n))).map
          (fun p => if p.1 = m then (p.1, p.2 ++ seg) else p) =
          (d.filter (fun p => decide (p.1 = n))).map id := by
        apply List.map_congr_left
        intro p hp
        have hpn : p.1 = n := by
          have := (List.mem_filter.mp hp).2
          simpa using this
        simp only [id]
        rw [if_neg (by rw [hpn]; exact hnm)]
      rw [hmapid, List.map_id, if_neg hnm, List.append_nil]
  · rw [if_neg (fun h => hm (hany.mp h)), List.filter_append, List.map_append,
      List.flatten_append]
    by_cases hnm : n = m
    · rw [if_pos hnm, List.filter_cons_of_pos (by simp [hnm]), List.filter_nil]
      simp
    · rw [if_neg hnm, List.filter_cons_of_neg (by simp; exact fun h => hnm h.symm),
        List.filter_nil]
      simp

theorem valcat_foldl :
    ∀ (es : List (List Char × List Char)) (d : List (List Char × List Char)),
      (d.map Prod.fst).Nodup → ∀ (n : List Char),
      (((es.foldl (fun d e => dictAdd d e.1 e.2) d).filter
          (fun p => decide (p.1 = n))).map Prod.snd).flatten =
        ((d.filter (fun p => decide (p.1 = n))).map Prod.snd).flatten ++
          ((es.filter (fun e => decide (e.1 = n))).map Prod.snd).flatten := by
  intro es
  induction es with
  | nil => intro d _ n; simp
  | cons e es ih =>
    intro d hnd n
    rw [List.foldl_cons, ih _ (dictAdd_keys_nodup d e.1 e.2 hnd) n,
      valcat_dictAdd d n e.1 e.2 hnd]
    by_cases he : e.1 = n
    · rw [List.filter_cons_of_pos (by simpa using he), if_pos he.symm, List.map_cons,
        List.flatten_cons, List.append_assoc]
    · rw [List.filter_cons_of_neg (by simpa using he), if_neg (fun h => he h.symm),
        List.append_nil]

/-- C9: `parse_msf` skips digit-only rulers and `consensus` lines, appends
each remaining line's concatenated non-name tokens to that name's running
residue string across all blocks, and returns the sequences keyed in
first-seen registration order of their names: the name list is the
first-seen dedup of the effective entries' names, and every returned pair
carries the concatenation, in reading order, of all segments registered
under its name. -/
theorem C9_parse_msf_characterization (lines : List (List Char)) :
    (parse_msf lines).map Prod.fst =
      dedupAppend [] ((effectiveEntries lines).map Prod.fst) ∧
    ∀ pr ∈ parse_msf lines,
      pr.2 = (((effectiveEntries lines).filter
        (fun e => decide (e.1 = pr.1))).map Prod.snd).flatten := by
  have hEq := parse_msf_eq_entries lines
  constructor
  · rw [hEq, foldl_dictAdd_keys]
    rfl
  · intro pr hpr
    have hnd : ((parse_msf lines).map Prod.fst).Nodup := by
      rw [hEq]
      exact foldl_dictAdd_nodup _ [] (by simp)
    have hfu := filter_key_unique _ hnd pr hpr
    have hval := valcat_foldl (effectiveEntries lines) [] (by simp) pr.1
    rw [← hEq, hfu] at hval
    simpa using hval

theorem C9_parse_msf_characterization_witness :
    ((parse_msf exMsfLines).map Prod.fst =
      dedupAppend [] ((effectiveEntries exMsfLines).map Prod.fst)) ∧
    ("seqB".toList, "CCCCDD".toList) ∈ parse_msf exMsfLines ∧
    ("CCCCDD".toList : List Char) = (((effectiveEntries exMsfLines).filter
      (fun e => decide (e.1 = "seqB".toList))).map Prod.snd).flatten :=
  ⟨(C9_parse_msf_characterization exMsfLines).1, by decide,
    (C9_parse_msf_characterization exMsfLines).2 ("seqB".toList, "CCCCDD".toList) (by decide)⟩

/-! ### C1: the editable round-trip -/

theorem headD_append {α : Type} (a b : List α) (d : α) (h : a ≠ []) :
    (a ++ b).headD d = a.headD d := by
  cases a with
  | nil => exact absurd rfl h
  | cons c t => rfl

theorem getLastD_cons' {α : Type} (c d : α) (t : List α) : (c :: t).getLastD d = t.getLastD c := by
  cases t <;> simp [List.getLastD]

theorem getLastD_irrel {α : Type} (b : List α) (h : b ≠ []) (d d' : α) :
    b.getLastD d = b.getLastD d' := by
  cases b with
  | nil => exact absurd rfl h
  | cons c t => rw [getLastD_cons' c d t, getLastD_cons' c d' t]

theorem length_dropWhile_le' (l : List Char) (p : Char → Bool) :
    (l.dropWhile p).length ≤ l.length :=
  (List.dropWhile_sublist p).length_le

theorem getLastD_append {α : Type} (a b : List α) (d : α) (h : b ≠ []) :
    (a ++ b).getLastD d = b.getLastD d := by
  induction a with
  | nil => rfl
  | cons c t ih =>
    have hne : t ++ b ≠ [] := fun he => h (List.append_eq_nil.mp he).2
    rw [List.cons_append, getLastD_cons', getLastD_irrel _ hne c d, ih]

theorem getLastD_mem {α : Type} (b : List α) (h : b ≠ []) (d : α) : b.getLastD d ∈ b := by
  induction b with
  | nil => exact absurd rfl h
  | cons c t ih =>
    rw [getLastD_cons']
    cases t with
    | nil => simp [List.getLastD]
    | cons c' t' =>
      rw [getLastD_irrel _ (by simp) c d]
      exact List.mem_cons_of_mem c (ih (by simp))

theorem headD_mem {α : Type} (b : List α) (h : b ≠ []) (d : α) : b.headD d ∈ b := by
  cases b with
  | nil => exact absurd rfl h
  | cons c t => exact List.mem_cons_self c t

theorem stripLeft_of_head (l : List Char) (h : pyIsSpace (l.headD ' ') = false) :
    stripLeft l = l := by
  cases l with
  | nil => rfl
  | cons c t =>
    unfold stripLeft
    rw [List.dropWhile_cons_of_neg (by simpa using h)]

theorem stripRight_of_last (l : List Char) (h : pyIsSpace (l.getLastD ' ') = false) :
    stripRight l = l := by
  cases hl : l.reverse with
  | nil =>
    have : l = [] := by simpa using congrArg List.reverse hl
    subst this; rfl
  | cons c t =>
    have hne : l ≠ [] := by
      intro he; rw [he] at hl; simp at hl
    have hc : c = l.getLastD ' ' := by
      have h1 : l = t.reverse ++ [c] := by
        have := congrArg List.reverse hl
        simpa using this
      rw [h1, getLastD_append _ _ _ (by simp)]
      rfl
    unfold stripRight
    rw [hl, List.dropWhile_cons_of_neg (by rw [hc]; simpa using h), ← hl]
    simp

theorem stripPy_of_ends (l : List Char) (h1 : pyIsSpace (l.headD ' ') = false)
    (h2 : pyIsSpace (l.getLastD ' ') = false) : stripPy l = l := by
  unfold stripPy
  rw [stripLeft_of_head l h1, stripRight_of_last l h2]

theorem length_stripRight_le (l : List Char) : (stripRight l).length ≤ l.length := by
  unfold stripRight
  rw [List.length_reverse]
  calc (l.reverse.dropWhile pyIsSpace).length ≤ l.reverse.length :=
        length_dropWhile_le' _ _
    _ = l.length := List.length_reverse l

theorem stripPy_head (l : List Char) (h : stripPy l = l) (hne : l ≠ []) :
    pyIsSpace (l.headD ' ') = false := by
  cases l with
  | nil => exact absurd rfl hne
  | cons c t =>
    by_contra hc
    have hc' : pyIsSpace c = true := by
      simpa using Bool.of_not_eq_false hc
    have h1 : stripLeft (c :: t) = t.dropWhile pyIsSpace := by
      unfold stripLeft
      rw [List.dropWhile_cons_of_pos hc']
    have h2 : (stripPy (c :: t)).length ≤ t.length := by
      unfold stripPy
      rw [h1]
      calc (stripRight (t.dropWhile pyIsSpace)).length ≤ (t.dropWhile pyIsSpace).length :=
            length_stripRight_le _
        _ ≤ t.length := length_dropWhile_le' _ _
    rw [h] at h2
    simp at h2

theorem stripLeft_length_lt_or_eq (l : List Char) :
    stripLeft l = l ∨ (stripLeft l).length < l.length := by
  cases l with
  | nil => exact Or.inl rfl
  | cons c t =>
    by_cases hc : pyIsSpace c = true
    · refine Or.inr ?_
      unfold stripLeft
      rw [List.dropWhile_cons_of_pos hc]
      calc (t.dropWhile pyIsSpace).length ≤ t.length := length_dropWhile_le' _ _
        _ < (c :: t).length := by simp
    · exact Or.inl (stripLeft_of_head _ (by simpa using hc))

theorem stripPy_last (l : List Char) (h : stripPy l = l) (hne : l ≠ []) :
    pyIsSpace (l.getLastD ' ') = false := by
  by_contra hc
  have hc' : pyIsSpace (l.getLastD ' ') = true := by
    simpa using Bool.of_not_eq_false hc
  have hsr : (stripRight l).length < l.length := by
    unfold stripRight
    rw [List.length_reverse]
    cases hl : l.reverse with
    | nil =>
      have : l = [] := by simpa using congrArg List.reverse hl
      exact absurd this hne
    | cons c t =>
      have hcl : c = l.getLastD ' ' := by
        have h1 : l = t.reverse ++ [c] := by
          have := congrArg List.reverse hl
          simpa using this
        rw [h1, getLastD_append _ _ _ (by simp)]
        rfl
      rw [List.dropWhile_cons_of_pos (by rw [hcl]; exact hc')]
      have hlen : l.reverse.length = t.length + 1 := by rw [hl]; rfl
      calc (t.dropWhile pyIsSpace).length ≤ t.length := length_dropWhile_le' _ _
        _ < l.reverse.length := by omega
        _ = l.length := List.length_reverse l
  rcases stripLeft_length_lt_or_eq l with he | hlt
  · have : (stripPy l).length < l.length := by
      unfold stripPy
      rw [he]
      exact hsr
    rw [h] at this
    omega
  · have : (stripPy l).length < l.length := by
      unfold stripPy
      calc (stripRight (stripLeft l)).length ≤ (stripLeft l).length := length_stripRight_le _
        _ < l.length := hlt
    rw [h] at this
    omega

theorem pyJoin_cons (sep x : List Char) (L : List (List Char)) (h : L ≠ []) :
    pyJoin sep (x :: L) = x ++ sep ++ pyJoin sep L := by
  cases L with
  | nil => exact absurd rfl h
  | cons y rest => rfl

theorem pyJoin_append_blank (sep : List Char) :
    ∀ (xs : List (List Char)), xs ≠ [] → pyJoin sep (xs ++ [[]]) = pyJoin sep xs ++ sep := by
  intro xs
  induction xs with
  | nil => intro h; exact absurd rfl h
  | cons x xs ih =>
    intro _
    cases xs with
    | nil =>
      show pyJoin sep (x :: [[]]) = x ++ sep
      rw [pyJoin_cons _ _ _ (by simp)]
      simp [pyJoin]
    | cons y rest =>
      rw [List.cons_append, pyJoin_cons _ _ _ (by simp), pyJoin_cons _ _ _ (by simp),
        ih (by simp)]
      simp [List.append_assoc]

theorem pyJoin_append (sep : List Char) :
    ∀ (xs ys : List (List Char)), xs ≠ [] → ys ≠ [] →
      pyJoin sep (xs ++ ys) = pyJoin sep xs ++ sep ++ pyJoin sep ys := by
  intro xs
  induction xs with
  | nil => intro ys h _; exact absurd rfl h
  | cons x xs ih =>
    intro ys _ hys
    cases xs with
    | nil =>
      rw [List.singleton_append, pyJoin_cons _ _ _ hys]
      rfl
    | cons y rest =>
      rw [List.cons_append, pyJoin_cons _ _ _ (by simp), pyJoin_cons _ _ _ (by simp),
        ih ys (by simp) hys]
      simp [List.append_assoc]

theorem splitNN_sep (t : List Char) : splitNN ('\n' :: '\n' :: t) = [] :: splitNN t := rfl

theorem splitNN_cons_ne (c : Char) (rest : List Char) (hc : c ≠ '\n') :
    splitNN (c :: rest) =
      match splitNN rest with
      | [] => [[c]]
      | h :: t => (c :: h) :: t := by
  rw [splitNN.eq_def]
  split
  · simp_all
  · simp_all
  · rename_i c' rest' heq
    injection heq with h1 h2
    subst h1
    subst h2
    rfl

theorem splitNN_cons2 (c1 c2 : Char) (rest : List Char) (hc : c2 ≠ '\n') :
    splitNN (c1 :: c2 :: rest) =
      match splitNN (c2 :: rest) with
      | [] => [[c1]]
      | h :: t => (c1 :: h) :: t := by
  rw [splitNN.eq_def]
  split
  · simp_all
  · simp_all
  · rename_i c' rest' heq
    injection heq with h1 h2
    subst h1
    subst h2
    rfl

theorem hasNN_cons_ne (c : Char) (rest : List Char) (hc : c ≠ '\n') :
    hasNN (c :: rest) = hasNN rest := by
  rw [hasNN.eq_def]
  split
  · simp_all
  · simp_all
  · rename_i c' rest' heq
    injection heq with h1 h2
    subst h1
    subst h2
    rfl

theorem hasNN_cons2 (c1 c2 : Char) (rest : List Char) (hc : c2 ≠ '\n') :
    hasNN (c1 :: c2 :: rest) = hasNN (c2 :: rest) := by
  rw [hasNN.eq_def]
  split
  · simp_all
  · simp_all
  · rename_i c' rest' heq
    injection heq with h1 h2
    subst h1
    subst h2
    rfl

theorem splitNN_append_sep :
    ∀ (b t : List Char), hasNN b = false → b.getLastD 'x' ≠ '\n' →
      splitNN (b ++ '\n' :: '\n' :: t) = b :: splitNN t := by
  intro b
  induction b with
  | nil => intro t _ _; exact splitNN_sep t
  | cons c b' ih =>
    intro t hnn hlast
    have htail : hasNN b' = false := by
      cases b' with
      | nil => rfl
      | cons c2 b'' =>
        by_cases hc2 : c2 = '\n'
        · subst hc2
          by_cases hc : c = '\n'
          · subst hc
            rw [show hasNN ('\n' :: '\n' :: b'') = true from rfl] at hnn
            exact absurd hnn (by simp)
          · rw [hasNN_cons_ne c _ hc] at hnn
            exact hnn
        · by_cases hc : c = '\n'
          · subst hc
            rw [hasNN_cons2 '\n' c2 b'' hc2] at hnn
            exact hnn
          · rw [hasNN_cons_ne c _ hc] at hnn
            exact hnn
    have hlast' : b'.getLastD 'x' ≠ '\n' := by
      cases b' with
      | nil => simp [List.getLastD]
      | cons c2 b'' =>
        rw [getLastD_cons'] at hlast
        rw [getLastD_irrel (c2 :: b'') (by simp) 'x' c]
        exact hlast
    by_cases hc : c = '\n'
    · subst hc
      cases b' with
      | nil => simp [List.getLastD] at hlast
      | cons c2 b'' =>
        have hc2 : c2 ≠ '\n' := by
          intro he; subst he
          rw [show hasNN ('\n' :: '\n' :: b'') = true from rfl] at hnn
          exact absurd hnn (by simp)
        show splitNN ('\n' :: c2 :: (b'' ++ '\n' :: '\n' :: t)) =
          ('\n' :: c2 :: b'') :: splitNN t
        rw [splitNN_cons2 '\n' c2 (b'' ++ '\n' :: '\n' :: t) hc2]
        have hrw : splitNN (c2 :: (b'' ++ '\n' :: '\n' :: t)) = (c2 :: b'') :: splitNN t :=
          ih t htail hlast'
        rw [hrw]
    · rw [List.cons_append, splitNN_cons_ne c _ hc, ih t htail hlast']

theorem splitNN_no_sep :
    ∀ (b : List Char), hasNN b = false → splitNN b = [b] := by
  intro b
  induction b with
  | nil => intro _; rfl
  | cons c b' ih =>
    intro hnn
    have htail : hasNN b' = false := by
      cases b' with
      | nil => rfl
      | cons c2 b'' =>
        by_cases hc : c = '\n'
        · subst hc
          have hc2 : c2 ≠ '\n' := by
            intro he; subst he
            rw [show hasNN ('\n' :: '\n' :: b'') = true from rfl] at hnn
            exact absurd hnn (by simp)
          rw [hasNN_cons2 '\n' c2 b'' hc2] at hnn
          exact hnn
        · rw [hasNN_cons_ne c _ hc] at hnn
          exact hnn
    by_cases hc : c = '\n'
    · subst hc
      cases b' with
      | nil => rfl
      | cons c2 b'' =>
        have hc2 : c2 ≠ '\n' := by
          intro he; subst he
          rw [show hasNN ('\n' :: '\n' :: b'') = true from rfl] at hnn
          exact absurd hnn (by simp)
        rw [splitNN_cons2 '\n' c2 b'' hc2, ih htail]
    · rw [splitNN_cons_ne c _ hc, ih htail]

theorem splitNN_join_blocks :
    ∀ (bs : List (List Char)), bs ≠ [] →
      (∀ b ∈ bs, hasNN b = false ∧ b.getLastD 'x' ≠ '\n') →
      splitNN (pyJoin ['\n', '\n'] bs) = bs := by
  intro bs
  induction bs with
  | nil => intro h _; exact absurd rfl h
  | cons b bs ih =>
    intro _ hall
    cases bs with
    | nil => exact splitNN_no_sep b (hall b (by simp)).1
    | cons b2 bs' =>
      rw [pyJoin_cons _ _ _ (by simp)]
      have : b ++ ['\n', '\n'] ++ pyJoin ['\n', '\n'] (b2 :: bs') =
          b ++ '\n' :: '\n' :: pyJoin ['\n', '\n'] (b2 :: bs') := by
        simp
      rw [this, splitNN_append_sep b _ (hall b (by simp)).1 (hall b (by simp)).2,
        ih (by simp) (fun x hx => hall x (List.mem_cons_of_mem _ hx))]

theorem headD_reverse (l : List Char) (d : Char) : l.reverse.headD d = l.getLastD d := by
  induction l with
  | nil => rfl
  | cons c t ih =>
    rw [List.reverse_cons, getLastD_cons']
    cases t with
    | nil => rfl
    | cons c' t' =>
      rw [headD_append _ _ _ (by simp), ih, getLastD_irrel _ (by simp) d c]

theorem splitlinesPy_nl (t : List Char) : splitlinesPy ('\n' :: t) = [] :: splitlinesPy t := rfl

set_option maxHeartbeats 1000000 in
theorem splitlinesPy_cons (c : Char) (rest : List Char) (hc : isLineBreak c = false) :
    splitlinesPy (c :: rest) =
      match splitlinesPy rest with
      | [] => [[c]]
      | h :: t => (c :: h) :: t := by
  have hr : c ≠ '\r' := by
    intro he; subst he; simp [isLineBreak] at hc
  rw [splitlinesPy.eq_def]
  split
  · rename_i heq
    exact absurd heq (by simp)
  · rename_i rest' heq
    injection heq with h1 h2
    exact absurd h1 hr
  · rename_i c' rest' heq
    injection heq with h1 h2
    subst h1
    subst h2
    simp only [hc, Bool.false_eq_true, if_false]

theorem splitlinesPy_append (l : List Char) (t : List Char)
    (h : ∀ c ∈ l, isLineBreak c = false) :
    splitlinesPy (l ++ '\n' :: t) = l :: splitlinesPy t := by
  induction l with
  | nil => exact splitlinesPy_nl t
  | cons c l' ih =>
    rw [List.cons_append,
      splitlinesPy_cons c _ (h c (List.mem_cons_self _ _)),
      ih (fun x hx => h x (List.mem_cons_of_mem _ hx))]

theorem splitlinesPy_single (l : List Char) (hne : l ≠ [])
    (h : ∀ c ∈ l, isLineBreak c = false) :
    splitlinesPy l = [l] := by
  induction l with
  | nil => exact absurd rfl hne
  | cons c l' ih =>
    rw [splitlinesPy_cons c _ (h c (List.mem_cons_self _ _))]
    cases l' with
    | nil => rfl
    | cons c2 l'' =>
      rw [ih (by simp) (fun x hx => h x (List.mem_cons_of_mem _ hx))]

theorem splitlinesPy_join :
    ∀ (L : List (List Char)), L ≠ [] →
      (∀ l ∈ L, l ≠ [] ∧ ∀ c ∈ l, isLineBreak c = false) →
      splitlinesPy (pyJoin ['\n'] L) = L := by
  intro L
  induction L with
  | nil => intro h _; exact absurd rfl h
  | cons x L ih =>
    intro _ hall
    cases L with
    | nil => exact splitlinesPy_single x (hall x (by simp)).1 (hall x (by simp)).2
    | cons y L' =>
      rw [pyJoin_cons _ _ _ (by simp)]
      have hsh : x ++ ['\n'] ++ pyJoin ['\n'] (y :: L') =
          x ++ '\n' :: pyJoin ['\n'] (y :: L') := by
        simp
      rw [hsh, splitlinesPy_append x _ (hall x (by simp)).2,
        ih (by simp) (fun l hl => hall l (List.mem_cons_of_mem _ hl))]

theorem pyJoin_cons_decomp (sep : List Char) (c : Char) (y' : List Char)
    (L : List (List Char)) :
    ∃ R, pyJoin sep ((c :: y') :: L) = c :: R := by
  cases L with
  | nil => exact ⟨y', rfl⟩
  | cons z L' => exact ⟨y' ++ sep ++ pyJoin sep (z :: L'), rfl⟩

theorem pyJoin_ne_nil (sep : List Char) (y : List Char) (L : List (List Char))
    (hy : y ≠ []) : pyJoin sep (y :: L) ≠ [] := by
  cases y with
  | nil => exact absurd rfl hy
  | cons c y' =>
    obtain ⟨R, hR⟩ := pyJoin_cons_decomp sep c y' L
    rw [hR]
    simp

theorem pyJoin_headD (sep : List Char) (y : List Char) (L : List (List Char))
    (hy : y ≠ []) (d : Char) : (pyJoin sep (y :: L)).headD d = y.headD d := by
  cases L with
  | nil => rfl
  | cons z L' =>
    rw [pyJoin_cons _ _ _ (by simp), headD_append _ _ _ (by simp [hy]), headD_append _ _ _ hy]

theorem pyJoin_getLastD (sep : List Char) (d : Char) :
    ∀ (L : List (List Char)), L ≠ [] → (∀ l ∈ L, l ≠ []) →
      (pyJoin sep L).getLastD d = (L.getLastD []).getLastD d := by
  intro L
  induction L with
  | nil => intro h _; exact absurd rfl h
  | cons x L ih =>
    intro _ hall
    cases L with
    | nil => rfl
    | cons y L' =>
      rw [pyJoin_cons _ _ _ (by simp),
        getLastD_append _ _ _ (pyJoin_ne_nil sep y L' (hall y (by simp))),
        ih (by simp) (fun l hl => hall l (List.mem_cons_of_mem _ hl)),
        getLastD_cons' x [] (y :: L'), getLastD_irrel (y :: L') (by simp) x []]

theorem hasNN_of_lbFree (l : List Char) (h : ∀ c ∈ l, isLineBreak c = false) :
    hasNN l = false := by
  induction l with
  | nil => rfl
  | cons c l' ih =>
    have hc : c ≠ '\n' := by
      intro he; subst he
      simp [isLineBreak] at h
    rw [hasNN_cons_ne c _ hc, ih (fun x hx => h x (List.mem_cons_of_mem _ hx))]

theorem hasNN_append_line (R : List Char) :
    ∀ (x : List Char), (∀ c ∈ x, isLineBreak c = false) → hasNN ('\n' :: R) = false →
      hasNN (x ++ '\n' :: R) = false := by
  intro x
  induction x with
  | nil => intro _ h; exact h
  | cons c x' ih =>
    intro hx h
    have hc : c ≠ '\n' := by
      intro he; subst he
      simp [isLineBreak] at hx
    rw [List.cons_append, hasNN_cons_ne c _ hc,
      ih (fun a ha => hx a (List.mem_cons_of_mem _ ha)) h]

theorem hasNN_join :
    ∀ (L : List (List Char)), (∀ l ∈ L, l ≠ [] ∧ ∀ c ∈ l, isLineBreak c = false) →
      hasNN (pyJoin ['\n'] L) = false := by
  intro L
  induction L with
  | nil => intro _; rfl
  | cons x L ih =>
    intro hall
    cases L with
    | nil => exact hasNN_of_lbFree x (hall x (by simp)).2
    | cons y L' =>
      have hy := hall y (by simp)
      have hnl : hasNN ('\n' :: pyJoin ['\n'] (y :: L')) = false := by
        cases y with
        | nil => exact absurd rfl hy.1
        | cons c y' =>
          obtain ⟨R, hR⟩ := pyJoin_cons_decomp ['\n'] c y' L'
          have hc : c ≠ '\n' := by
            intro he; subst he
            have h2 := hy.2 '\n' (List.mem_cons_self _ _)
            simp [isLineBreak] at h2
          rw [hR, hasNN_cons2 '\n' c R hc, ← hR]
          exact ih (fun l hl => hall l (List.mem_cons_of_mem _ hl))
      have hsh : pyJoin ['\n'] (x :: y :: L') = x ++ '\n' :: pyJoin ['\n'] (y :: L') := by
        rw [pyJoin_cons _ _ _ (by simp)]
        simp
      rw [hsh]
      exact hasNN_append_line _ x (hall x (by simp)).2 hnl

theorem getLastD_map {α β : Type} (f : α → β) :
    ∀ (A : List α) (a : α) (d : β), A ≠ [] → (A.map f).getLastD d = f (A.getLastD a) := by
  intro A
  induction A with
  | nil => intro a d h; exact absurd rfl h
  | cons x A' ih =>
    intro a d _
    cases A' with
    | nil => rfl
    | cons y A'' =>
      rw [List.map_cons, getLastD_cons', getLastD_cons',
        getLastD_irrel _ (by simp) (f x) d, getLastD_irrel (y :: A'') (by simp) x a]
      exact ih a d (by simp)

theorem export_structure (n : Nat) :
    ∀ (A : List (List Char × List Char)), A ≠ [] →
      plain_text_alignment A n =
        pyJoin ['\n', '\n'] (A.map (lineBlock n)) ++ ['\n'] := by
  intro A
  induction A with
  | nil => intro h; exact absurd rfl h
  | cons p A ih =>
    intro _
    unfold plain_text_alignment at ih ⊢
    cases A with
    | nil =>
      rw [List.flatMap_cons, List.flatMap_nil, List.append_nil]
      have hsh : p.1 :: (seqLines n p.2 ++ [[]]) = (p.1 :: seqLines n p.2) ++ [[]] := by
        simp
      rw [hsh, pyJoin_append_blank _ _ (by simp)]
      rfl
    | cons q A' =>
      rw [List.flatMap_cons]
      have hne : (q :: A').flatMap (fun p => p.1 :: (seqLines n p.2 ++ [[]])) ≠ [] := by
        rw [List.flatMap_cons]
        simp
      have hsh : (p.1 :: (seqLines n p.2 ++ [[]])) ++
          (q :: A').flatMap (fun p => p.1 :: (seqLines n p.2 ++ [[]])) =
          (p.1 :: seqLines n p.2) ++
            (([] : List Char) :: (q :: A').flatMap (fun p => p.1 :: (seqLines n p.2 ++ [[]]))) := by
        simp
      have hm : List.map (lineBlock n) (p :: q :: A') =
          lineBlock n p :: List.map (lineBlock n) (q :: A') := rfl
      rw [hsh,
        pyJoin_append ['\n'] (p.1 :: seqLines n p.2)
          (([] : List Char) :: (q :: A').flatMap (fun p => p.1 :: (seqLines n p.2 ++ [[]])))
          (by simp) (by simp),
        pyJoin_cons _ _ _ hne, hm,
        pyJoin_cons ['\n', '\n'] (lineBlock n p) ((q :: A').map (lineBlock n)) (by simp),
        ih (by simp)]
      unfold lineBlock
      simp [List.append_assoc]

theorem stripPy_append_newline (X : List Char) (hne : X ≠ [])
    (h1 : pyIsSpace (X.headD ' ') = false) (h2 : pyIsSpace (X.getLastD ' ') = false) :
    stripPy (X ++ ['\n']) = X := by
  unfold stripPy
  rw [stripLeft_of_head _ (by rw [headD_append _ _ _ hne]; exact h1)]
  unfold stripRight
  rw [List.reverse_append, show (['\n'] : List Char).reverse = ['\n'] from rfl,
    List.singleton_append,
    List.dropWhile_cons_of_pos (by decide : pyIsSpace '\n' = true)]
  have hx : X.reverse.dropWhile pyIsSpace = X.reverse := by
    cases hr : X.reverse with
    | nil => rfl
    | cons c t =>
      have hc : c = X.getLastD ' ' := by
        have : X.reverse.headD ' ' = c := by rw [hr]; rfl
        rw [headD_reverse] at this
        exact this.symm
      have hcs : ¬ pyIsSpace c = true := by
        rw [hc, h2]
        simp
      rw [List.dropWhile_cons_of_neg hcs]
  rw [hx, List.reverse_reverse]

/-- The per-pair facts used to reassemble a block from its exported text. -/
theorem lineBlock_facts (n : Nat) (hn : 1 ≤ n) (p : List Char × List Char)
    (hp : exportSafe n p) :
    lineBlock n p ≠ [] ∧
    pyIsSpace ((lineBlock n p).headD ' ') = false ∧
    pyIsSpace ((lineBlock n p).getLastD ' ') = false ∧
    hasNN (lineBlock n p) = false ∧
    splitlinesPy (lineBlock n p) = p.1 :: seqLines n p.2 := by
  obtain ⟨hne, hstrip, hlbn, hlbs, hchunks⟩ := hp
  have hlines : ∀ l ∈ p.1 :: seqLines n p.2, l ≠ [] ∧ ∀ c ∈ l, isLineBreak c = false := by
    intro l hl
    rcases List.mem_cons.mp hl with rfl | hl'
    · exact ⟨hne, hlbn⟩
    · exact ⟨(seqLines_mem n hn p.2 l hl').1,
        fun c hc => hlbs c (seqLines_sublist_chars n hn p.2 l hl' c hc)⟩
  refine ⟨pyJoin_ne_nil _ _ _ hne, ?_, ?_, hasNN_join _ hlines,
    splitlinesPy_join _ (by simp) hlines⟩
  · show pyIsSpace ((pyJoin ['\n'] (p.1 :: seqLines n p.2)).headD ' ') = false
    rw [pyJoin_headD _ _ _ hne]
    exact stripPy_head p.1 hstrip hne
  · show pyIsSpace ((pyJoin ['\n'] (p.1 :: seqLines n p.2)).getLastD ' ') = false
    rw [pyJoin_getLastD _ _ _ (by simp) (fun l hl => (hlines l hl).1)]
    cases hsl : seqLines n p.2 with
    | nil =>
      exact stripPy_last p.1 hstrip hne
    | cons l0 ls =>
      rw [getLastD_cons']
      have hmem : (l0 :: ls).getLastD p.1 ∈ l0 :: ls := getLastD_mem _ (by simp) p.1
      have hmem' : (l0 :: ls).getLastD p.1 ∈ seqLines n p.2 := by rw [hsl]; exact hmem
      exact stripPy_last _ (hchunks _ hmem')
        (seqLines_mem n hn p.2 _ hmem').1

theorem lineBlock_parses (n : Nat) (hn : 1 ≤ n) (p : List Char × List Char)
    (hp : exportSafe n p) :
    (match splitlinesPy (stripPy (lineBlock n p)) with
      | [] => none
      | nameLine :: rest => some (stripPy nameLine, (rest.map stripPy).flatten)) =
      some (p.1, p.2) := by
  obtain ⟨hbne, hbh, hbl, _, hbsplit⟩ := lineBlock_facts n hn p hp
  rw [stripPy_of_ends _ hbh hbl, hbsplit]
  have hmap : (seqLines n p.2).map stripPy = (seqLines n p.2).map id := by
    apply List.map_congr_left
    intro l hl
    simp only [id]
    exact hp.2.2.2.2 l hl
  show some (stripPy p.1, ((seqLines n p.2).map stripPy).flatten) = some (p.1, p.2)
  rw [hp.2.1, hmap, List.map_id, seqLines_flatten n hn p.2]

theorem filterMap_lineBlocks (n : Nat) (hn : 1 ≤ n) :
    ∀ (A : List (List Char × List Char)), (∀ p ∈ A, exportSafe n p) →
      (A.map (lineBlock n)).filterMap (fun block =>
        match splitlinesPy (stripPy block) with
        | [] => none
        | nameLine :: rest => some (stripPy nameLine, (rest.map stripPy).flatten)) = A := by
  intro A
  induction A with
  | nil => intro _; rfl
  | cons p A' ih =>
    intro hA
    rw [List.map_cons]
    simp only [List.filterMap_cons]
    rw [lineBlock_parses n hn p (hA p (by simp)),
      ih (fun r hr => hA r (List.mem_cons_of_mem _ hr))]

/-- The amended round-trip: parsing the export reproduces the alignment. -/
theorem parse_export_id (n : Nat) (hn : 1 ≤ n) (A : List (List Char × List Char))
    (hA : ∀ p ∈ A, exportSafe n p) :
    parse_editable_alignment (plain_text_alignment A n) = A := by
  cases A with
  | nil => rfl
  | cons p A' =>
    rw [export_structure n (p :: A') (by simp)]
    unfold parse_editable_alignment
    have hblocks : ∀ b ∈ (p :: A').map (lineBlock n), hasNN b = false ∧
        b.getLastD 'x' ≠ '\n' := by
      intro b hb
      obtain ⟨q, hq, rfl⟩ := List.mem_map.mp hb
      obtain ⟨hbne, _, hbl, hbnn, _⟩ := lineBlock_facts n hn q (hA q hq)
      refine ⟨hbnn, ?_⟩
      rw [getLastD_irrel _ hbne 'x' ' ']
      intro he
      rw [he] at hbl
      exact absurd hbl (by simp [pyIsSpace])
    have hXne : pyJoin ['\n', '\n'] ((p :: A').map (lineBlock n)) ≠ [] := by
      rw [List.map_cons]
      exact pyJoin_ne_nil _ _ _ (lineBlock_facts n hn p (hA p (by simp))).1
    have hXh : pyIsSpace ((pyJoin ['\n', '\n'] ((p :: A').map (lineBlock n))).headD ' ')
        = false := by
      rw [List.map_cons, pyJoin_headD _ _ _ (lineBlock_facts n hn p (hA p (by simp))).1]
      exact (lineBlock_facts n hn p (hA p (by simp))).2.1
    have hXl : pyIsSpace ((pyJoin ['\n', '\n'] ((p :: A').map (lineBlock n))).getLastD ' ')
        = false := by
      rw [pyJoin_getLastD _ _ _ (by simp) (fun b hb => by
        obtain ⟨q, hq, rfl⟩ := List.mem_map.mp hb
        exact (lineBlock_facts n hn q (hA q hq)).1)]
      have hlast : ((p :: A').map (lineBlock n)).getLastD [] =
          lineBlock n ((p :: A').getLastD ([], [])) :=
        getLastD_map (lineBlock n) (p :: A') ([], []) [] (by simp)
      rw [hlast]
      have hqmem : (p :: A').getLastD ([], []) ∈ p :: A' := getLastD_mem _ (by simp) _
      exact (lineBlock_facts n hn _ (hA _ hqmem)).2.2.1
    rw [stripPy_append_newline _ hXne hXh hXl,
      splitNN_join_blocks _ (by simp) hblocks]
    exact filterMap_lineBlocks n hn (p :: A') hA

set_option maxRecDepth 8000 in
/-- C1: as stated, the round-trip law fails.  Four concrete alignments satisfy
the claim's hypotheses (names without an embedded blank line — no two
adjacent newlines — and residue strings without leading/trailing whitespace),
yet re-parsing the export and re-exporting does not reproduce the export:
a name with a single embedded newline, a name with a leading space, a
61-residue string with a space at the 60-column chunk boundary, and an empty
name. -/
theorem C1_counterexample :
    (hasNN ['a', '\n', 'b'] = false ∧ stripPy ['C'] = ['C'] ∧
      plain_text_alignment (parse_editable_alignment
          (plain_text_alignment [(['a', '\n', 'b'], ['C'])] 60)) 60 ≠
        plain_text_alignment [(['a', '\n', 'b'], ['C'])] 60) ∧
    (hasNN [' ', 'X'] = false ∧ stripPy ['C'] = ['C'] ∧
      plain_text_alignment (parse_editable_alignment
          (plain_text_alignment [([' ', 'X'], ['C'])] 60)) 60 ≠
        plain_text_alignment [([' ', 'X'], ['C'])] 60) ∧
    (hasNN ['n'] = false ∧
      stripPy (List.replicate 59 'A' ++ ' ' :: ['A']) = List.replicate 59 'A' ++ ' ' :: ['A'] ∧
      plain_text_alignment (parse_editable_alignment
          (plain_text_alignment [(['n'], List.replicate 59 'A' ++ ' ' :: ['A'])] 60)) 60 ≠
        plain_text_alignment [(['n'], List.replicate 59 'A' ++ ' ' :: ['A'])] 60) ∧
    (hasNN [] = false ∧ stripPy ['C'] = ['C'] ∧
      plain_text_alignment (parse_editable_alignment
          (plain_text_alignment [(([] : List Char), ['C'])] 60)) 60 ≠
        plain_text_alignment [(([] : List Char), ['C'])] 60) := by
  refine ⟨⟨by decide, by decide, by decide⟩, ⟨by decide, by decide, by decide⟩,
    ⟨by decide, by decide, by decide⟩, ⟨by decide, by decide, by decide⟩⟩

/-- C1 (amended): the round-trip law holds when additionally every name is
non-empty, contains no line-break character at all (not only no blank line)
and carries no leading/trailing whitespace, the residues contain no
line-break character, and no exported residue line has leading or trailing
whitespace.  Then parsing the export reproduces the alignment exactly, and
re-exporting reproduces the export byte for byte. -/
theorem C1_roundtrip_amended (n : Nat) (hn : 1 ≤ n) (A : List (List Char × List Char))
    (hA : ∀ p ∈ A, exportSafe n p) :
    parse_editable_alignment (plain_text_alignment A n) = A ∧
    plain_text_alignment (parse_editable_alignment (plain_text_alignment A n)) n =
      plain_text_alignment A n := by
  have h := parse_export_id n hn A hA
  exact ⟨h, by rw [h]⟩

set_option maxRecDepth 8000 in
theorem C1_roundtrip_amended_witness :
    1 ≤ 60 ∧
    (∀ p ∈ [("n1".toList, "AC".toList), ("n2".toList, List.replicate 61 'G')],
      exportSafe 60 p) ∧
    (parse_editable_alignment (plain_text_alignment
        [("n1".toList, "AC".toList), ("n2".toList, List.replicate 61 'G')] 60) =
      [("n1".toList, "AC".toList), ("n2".toList, List.replicate 61 'G')] ∧
    plain_text_alignment (parse_editable_alignment (plain_text_alignment
        [("n1".toList, "AC".toList), ("n2".toList, List.replicate 61 'G')] 60)) 60 =
      plain_text_alignment
        [("n1".toList, "AC".toList), ("n2".toList, List.replicate 61 'G')] 60) :=
  ⟨by decide, by decide,
    C1_roundtrip_amended 60 (by decide) _ (by decide)⟩

end App
